import Mathlib

/-!
Shallow embedding of the `todo` command-line task manager (C sources:
`src/db.c`, `src/cli.c`, `src/utils.c`, `src/todo.c`) and proofs about the
behaviour its specification claims.

Modelling conventions:
* C `int` and `time_t` are modelled as `Int`; SQL `NULL` timestamps are
  modelled as `0` (this is what `sqlite3_column_int64` returns for a NULL
  column, so it is also what the C code itself observes on read-back).
* A SQLite row set is a `List Todo`; the table keeps rows in rowid (= `id`)
  insertion order.  `AUTOINCREMENT` id assignment is modelled by a
  `next_id` counter carried in the `Store`.
* C strings are Lean `String`s, except in the renderer (`utils.c`), which
  manipulates raw bytes; there strings are `List Nat` of byte values.
* Fallible operations return `Option` (`none` = the C function returned -1
  and printed an error).
-/

/-- The `Todo` record, one row of the `todos` table
(struct `Todo` in `todo.h` plus the migration columns
`repeat_days`, `repeat_months`, `spawned_next` added in `db_init`). -/
structure Todo where
  id : Int
  title : String
  description : String
  category : String
  priority : Int
  status : Int
  created_at : Int
  completed_at : Int
  due_date : Int
  repeat_days : Int
  repeat_months : Int
  spawned_next : Int
  deriving DecidableEq, Repr

/-- The persistent store: the `todos` table rows in rowid order plus the
next rowid that `AUTOINCREMENT` will hand out. -/
structure Store where
  rows : List Todo
  next_id : Int
  deriving DecidableEq, Repr

/-- `db_add_todo` (db.c:86-122): INSERT with the bind-time defaulting done
there (`description ? description : ""`, `category ? category : "General"`,
`priority > 0 ? priority : PRIORITY_MEDIUM`, NULL due date when
`due_date <= 0`, repeat fields clamped to 0 when non-positive).  Columns not
named in the INSERT take their schema defaults: `status` 0,
`created_at` CURRENT_TIMESTAMP (the `now` argument), `completed_at` NULL,
`spawned_next` 0.  Returns the updated store and `sqlite3_last_insert_rowid`. -/
def db_add_todo (st : Store) (title : String) (description category : Option String)
    (priority : Int) (due_date : Int) (repeat_days repeat_months : Int)
    (now : Int) : Store × Int :=
  let row : Todo :=
    { id := st.next_id
      title := title
      description := description.getD ""
      category := category.getD "General"
      priority := if 0 < priority then priority else 2
      status := 0
      created_at := now
      completed_at := 0
      due_date := if 0 < due_date then due_date else 0
      repeat_days := if 0 < repeat_days then repeat_days else 0
      repeat_months := if 0 < repeat_months then repeat_months else 0
      spawned_next := 0 }
  ({ rows := st.rows ++ [row], next_id := st.next_id + 1 }, st.next_id)

/-- `db_update_todo` (db.c:263-304): first SELECT the current row by id
(not-found error when absent), then UPDATE `title`, `description`,
`category`, `priority`, `due_date` on the rows matching the id, each field
falling back to the current value when its argument is absent (NULL string
pointer / non-positive priority / non-positive due date; a non-positive
effective due date is stored as NULL). -/
def db_update_todo (st : Store) (id : Int) (title description category : Option String)
    (priority : Int) (due_date : Int) : Option Store :=
  match st.rows.find? (fun r => r.id == id) with
  | none => none
  | some current =>
    let newTitle := title.getD current.title
    let newDescription := description.getD current.description
    let newCategory := category.getD current.category
    let newPriority := if 0 < priority then priority else current.priority
    let effective_due := if 0 < due_date then due_date else current.due_date
    let storedDue := if 0 < effective_due then effective_due else 0
    some { st with
           rows := st.rows.map (fun r =>
             if r.id == id then
               { r with title := newTitle, description := newDescription,
                        category := newCategory, priority := newPriority,
                        due_date := storedDue }
             else r) }

/-- `db_complete_todo` (db.c:338-368): UPDATE `status = 1`,
`completed_at = CURRENT_TIMESTAMP` (the `now` argument) on the rows matching
the id; reports not-found (returns -1) when `sqlite3_changes` is 0. -/
def db_complete_todo (st : Store) (id : Int) (now : Int) : Option Store :=
  if st.rows.any (fun r => r.id == id) then
    some { st with
           rows := st.rows.map (fun r =>
             if r.id == id then { r with status := 1, completed_at := now } else r) }
  else none

/-- `db_uncomplete_todo` (db.c:370-400): UPDATE `status = 0`,
`completed_at = NULL`; not-found when no row changed. -/
def db_uncomplete_todo (st : Store) (id : Int) : Option Store :=
  if st.rows.any (fun r => r.id == id) then
    some { st with
           rows := st.rows.map (fun r =>
             if r.id == id then { r with status := 0, completed_at := 0 } else r) }
  else none

/-- `db_delete_todo` (db.c:306-336): DELETE by id; reports not-found when
`sqlite3_changes` is 0. -/
def db_delete_todo (st : Store) (id : Int) : Option Store :=
  if st.rows.any (fun r => r.id == id) then
    some { st with rows := st.rows.filter (fun r => !(r.id == id)) }
  else none

/-- `db_mark_spawned` (db.c:449-467): UPDATE `spawned_next = 1` WHERE id
matches.  Unlike delete/complete/uncomplete it never inspects
`sqlite3_changes`, so it reports success whether or not a row matched. -/
def db_mark_spawned (st : Store) (id : Int) : Option Store :=
  some { st with
         rows := st.rows.map (fun r =>
           if r.id == id then { r with spawned_next := 1 } else r) }

/-- The filter of `db_get_todos` (struct `TodoFilter`): optional category
(a NULL pointer or empty string means no category filter, db.c:137) and a
status, `-1` (`STATUS_ALL`) meaning no status filter (db.c:141). -/
structure TodoFilter where
  category : Option String
  status : Int
  deriving DecidableEq, Repr

/-- The WHERE clause built by `db_get_todos` (db.c:136-145). -/
def todo_matches (f : TodoFilter) (t : Todo) : Bool :=
  (match f.category with
   | some c => if 0 < c.length then t.category == c else true
   | none => true)
  && (if f.status == -1 then true else t.status == f.status)

/-- The comparison implied by `ORDER BY priority DESC, created_at DESC`
(db.c:147): `a` may come no later than `b`. -/
def todo_order (a b : Todo) : Prop :=
  b.priority < a.priority ∨ (a.priority = b.priority ∧ b.created_at ≤ a.created_at)

instance : DecidableRel todo_order := fun a b => by
  unfold todo_order; infer_instance

instance : IsTotal Todo todo_order := by
  constructor
  intro a b
  unfold todo_order
  omega

instance : IsTrans Todo todo_order := by
  constructor
  intro a b c hab hbc
  unfold todo_order at *
  omega

/-- `db_get_todos` (db.c:124-206): SELECT the rows passing the filter,
`ORDER BY priority DESC, created_at DESC`.  The executable model realises
the ORDER BY with a sort by `todo_order` over the table's rowid order;
the relative order of rows equal on both sort keys is *not* promised by the
SQL and is an artifact of this realisation (see `db_get_todos_post`). -/
def db_get_todos (st : Store) (f : TodoFilter) : List Todo :=
  List.insertionSort todo_order (st.rows.filter (todo_matches f))

/-- Everything the SQL of `db_get_todos` guarantees about a result: it is
the filtered rows in some order consistent with
`ORDER BY priority DESC, created_at DESC`.  SQLite leaves the relative
order of rows that compare equal on all ORDER BY keys unspecified. -/
def db_get_todos_post (st : Store) (f : TodoFilter) (res : List Todo) : Prop :=
  res.Perm (st.rows.filter (todo_matches f)) ∧ res.Sorted todo_order

/-- The ordering asserted by the specification for `list(filter)`:
priority descending, then `created_at` descending, remaining ties broken by
ascending `id`. -/
def claim_order (a b : Todo) : Prop :=
  b.priority < a.priority ∨
    (a.priority = b.priority ∧
      (b.created_at < a.created_at ∨ (a.created_at = b.created_at ∧ a.id < b.id)))

instance : DecidableRel claim_order := fun a b => by
  unfold claim_order; infer_instance

/-- The WHERE clause of `db_get_todos_needing_spawn` (db.c:475-479):
`(repeat_days > 0 OR repeat_months > 0) AND due_date < now AND
spawned_next = 0 AND status = 0`. -/
def needs_spawn (now : Int) (t : Todo) : Bool :=
  (0 < t.repeat_days || 0 < t.repeat_months) && t.due_date < now
    && t.spawned_next == 0 && t.status == 0

/-- `db_get_todos_needing_spawn` (db.c:469-530): the rows passing
`needs_spawn` at time `now` (`time(NULL)` bound at db.c:488), in table
order. -/
def db_get_todos_needing_spawn (now : Int) (st : Store) : List Todo :=
  st.rows.filter (needs_spawn now)

/-- The catch-up loops of `spawn_repeating_todos` (cli.c:557-568):
`while (new_due < now) new_due = step new_due`.  The C loop is unbounded;
here it carries fuel, and `spawn_next_due` supplies fuel that suffices
whenever `step` strictly increases its argument (which holds for both
steps the code uses, day intervals being positive and `add_months`
advancing the calendar). -/
def catch_up (step : Int → Int) (now : Int) : Nat → Int → Int
  | 0, d => d
  | Nat.succ n, d => if d < now then catch_up step now n (step d) else d

/-- The next due date computed by `spawn_repeating_todos` (cli.c:553-569)
for one todo: one repeat interval past the old due date, then catch up
until the result is no longer `< now`.  `add_months` (cli.c:534-539) is
`localtime`/`mktime` calendar arithmetic living in libc, so it is a
parameter of the model. -/
def spawn_next_due (add_months : Int → Int → Int) (now : Int) (t : Todo) : Int :=
  if 0 < t.repeat_days then
    let step := fun d => d + t.repeat_days * 86400
    let first := step t.due_date
    catch_up step now (now - first).toNat first
  else
    let step := fun d => add_months d t.repeat_months
    let first := step t.due_date
    catch_up step now (now - first).toNat first

/-- One iteration of the loop of `spawn_repeating_todos` (cli.c:549-586):
insert the successor via `db_add_todo` with the predecessor's title,
description, category, priority and repeat fields and the computed due
date, and — when the insert succeeded — `db_mark_spawned` the
predecessor. -/
def spawn_one (add_months : Int → Int → Int) (now : Int) (st : Store) (t : Todo) : Store :=
  let new_due := spawn_next_due add_months now t
  let (st2, new_id) := db_add_todo st t.title (some t.description) (some t.category)
    t.priority new_due t.repeat_days t.repeat_months now
  if 0 < new_id then
    match db_mark_spawned st2 t.id with
    | some st3 => st3
    | none => st2
  else st2

/-- The successor row `db_add_todo` inserts for predecessor `t` in
`spawn_one` (cli.c:572-580), given the rowid `nid` it receives: the
predecessor's title, description, category, priority and repeat fields
(through `db_add_todo`'s bind-time defaulting) with the computed due date,
status Pending, `completed_at` unset and `spawned_next` false. -/
def spawn_child (am : Int → Int → Int) (now : Int) (nid : Int) (t : Todo) : Todo :=
  { id := nid
    title := t.title
    description := t.description
    category := t.category
    priority := if 0 < t.priority then t.priority else 2
    status := 0
    created_at := now
    completed_at := 0
    due_date := if 0 < spawn_next_due am now t then spawn_next_due am now t else 0
    repeat_days := if 0 < t.repeat_days then t.repeat_days else 0
    repeat_months := if 0 < t.repeat_months then t.repeat_months else 0
    spawned_next := 0 }

/-- `spawn_repeating_todos` (cli.c:541-589): take the needing-spawn
snapshot, then process each of its todos in order. -/
def spawn_repeating_todos (add_months : Int → Int → Int) (now : Int) (st : Store) : Store :=
  (db_get_todos_needing_spawn now st).foldl (spawn_one add_months now) st

/-- `cli_add` (cli.c:506-532): reject a NULL or empty title with
`Error: Title is required` on stderr and leave the store alone; otherwise
substitute `now` for a missing due date when a repeat is set, and insert.
Returns the store and the stderr lines (the last-command banner is not
modelled; no claim concerns it). -/
def cli_add (st : Store) (title : Option String) (description category : Option String)
    (priority : Int) (due_date : Int) (repeat_days repeat_months : Int)
    (now : Int) : Store × List String :=
  match title with
  | none => (st, ["Error: Title is required"])
  | some t =>
    if t.length == 0 then (st, ["Error: Title is required"])
    else
      let effective_due :=
        if (0 < repeat_days || 0 < repeat_months) && due_date == 0 then now else due_date
      let (st2, _) := db_add_todo st t description category priority effective_due
        repeat_days repeat_months now
      (st2, [])

/-- The store effect of `cli_list` (cli.c:591-593): it first runs
`spawn_repeating_todos`; the rest of `cli_list` only renders. -/
def cli_list_effect (add_months : Int → Int → Int) (now : Int) (st : Store) : Store :=
  spawn_repeating_todos add_months now st

/-- The `CMD_ADD` arm of `cli_run` (cli.c:448-449, 499-503): run `cli_add`,
then the automatic unfiltered `cli_list` (whose store effect is the spawn
pass), and fall through to `return 0`.  Result: final store, exit code,
stderr lines. -/
def cli_run_add (add_months : Int → Int → Int) (st : Store) (title : Option String)
    (description category : Option String) (priority : Int) (due_date : Int)
    (repeat_days repeat_months : Int) (now : Int) : Store × Int × List String :=
  let (st2, errs) := cli_add st title description category priority due_date
    repeat_days repeat_months now
  let st3 := cli_list_effect add_months now st2
  (st3, 0, errs)

/-- One `--edit` invocation, `cli_edit` (cli.c:874-889): reject a
non-positive id; reject the call when no field argument is provided;
otherwise `db_update_todo` (a failed update leaves the store unchanged). -/
def cli_edit (st : Store) (id : Int) (title description category : Option String)
    (priority : Int) (due_date : Int) : Store :=
  if id ≤ 0 then st
  else if title == none && description == none && category == none
      && priority == 0 && due_date == 0 then st
  else
    match db_update_todo st id title description category priority due_date with
    | some st2 => st2
    | none => st

/-- The arguments of one `cli_edit` call, for reasoning about sequences of
edits. -/
structure EditOp where
  id : Int
  title : Option String
  description : Option String
  category : Option String
  priority : Int
  due_date : Int

/-- A sequence of Edit operations applied through `cli_edit`. -/
def cli_edit_seq (st : Store) (ops : List EditOp) : Store :=
  ops.foldl (fun s o => cli_edit s o.id o.title o.description o.category o.priority o.due_date) st

/-- A UTF-8 continuation byte (utils.c:199: `(*p & 0xC0) == 0x80`). -/
def is_cont_byte (b : Nat) : Bool := b &&& 192 == 128

/-- The SGR-skipping loop `while (*p && *p != 'm') p++; if (*p == 'm') p++;`
shared by `visible_strlen` and the wrap scanners: splits a byte string into
the bytes consumed by the skip (including the terminating `m` = 109 when
found) and the remainder (a NUL byte 0 stops the skip without being
consumed). -/
def skipSGRsplit : List Nat → List Nat × List Nat
  | [] => ([], [])
  | b :: rest =>
    if b = 0 then ([], b :: rest)
    else if b = 109 then ([b], rest)
    else
      let p := skipSGRsplit rest
      (b :: p.1, p.2)

/-- The remainder after the SGR skip. -/
def skipSGR (l : List Nat) : List Nat := (skipSGRsplit l).2

/-- `visible_strlen` (utils.c:182-210): count bytes that are neither part
of an `ESC [ ... m` sequence nor UTF-8 continuation bytes.  A lone ESC not
followed by `[` counts as one visible character, exactly as in the C. -/
def visible_strlen : List Nat → Nat
  | [] => 0
  | b :: rest =>
    if b = 0 then 0
    else if b = 27 ∧ rest.head? = some 91 then visible_strlen (skipSGR rest.tail)
    else if is_cont_byte b then visible_strlen rest
    else visible_strlen rest + 1
termination_by l => l.length
decreasing_by
  · have hlen : ∀ x : List Nat, (skipSGRsplit x).2.length ≤ x.length := by
      intro x
      induction x with
      | nil => simp [skipSGRsplit]
      | cons c cs ih =>
        simp only [skipSGRsplit]
        split
        · simp
        · split
          · simp
          · simpa using Nat.le_succ_of_le ih
    have := hlen rest.tail
    have h2 : rest.tail.length ≤ rest.length := by
      cases rest <;> simp
    simp only [skipSGR, List.length_cons]
    omega
  · simp
  · simp

/-- The visible content of a byte string: the bytes left after removing
`ESC [ ... m` sequences, with the same skipping discipline as
`visible_strlen` (continuation bytes are part of the content even though
they are not counted).  This is the claim-side notion used to state wrap
round-trip correctness. -/
def vis_content : List Nat → List Nat
  | [] => []
  | b :: rest =>
    if b = 0 then []
    else if b = 27 ∧ rest.head? = some 91 then vis_content (skipSGR rest.tail)
    else b :: vis_content rest
termination_by l => l.length
decreasing_by
  · have hlen : ∀ x : List Nat, (skipSGRsplit x).2.length ≤ x.length := by
      intro x
      induction x with
      | nil => simp [skipSGRsplit]
      | cons c cs ih =>
        simp only [skipSGRsplit]
        split
        · simp
        · split
          · simp
          · simpa using Nat.le_succ_of_le ih
    have := hlen rest.tail
    have h2 : rest.tail.length ≤ rest.length := by
      cases rest <;> simp
    simp only [skipSGR, List.length_cons]
    omega
  · simp

/-- The leading-ANSI-prefix extraction of `print_bordered_wrapped`
(utils.c:458-471): consume the leading run of `ESC [ ... m` sequences,
copying each into the prefix buffer only while the 63-byte cap allows
(`prefix_len + seq_len < sizeof(prefix_codes) - 1`); return the copied
prefix and the remainder of the string (`content_start`). -/
def extract_prefix_go (pl : Nat) (acc : List Nat) (l : List Nat) : List Nat × List Nat :=
  match l with
  | b :: r1 :: rest =>
    if h : b = 27 ∧ r1 = 91 then
      let p := skipSGRsplit rest
      let seq := 27 :: 91 :: p.1
      if pl + seq.length < 63 then extract_prefix_go (pl + seq.length) (acc ++ seq) p.2
      else extract_prefix_go pl acc p.2
    else (acc, l)
  | _ => (acc, l)
termination_by l.length
decreasing_by
  all_goals
    have hlen : ∀ x : List Nat, (skipSGRsplit x).2.length ≤ x.length := by
      intro x
      induction x with
      | nil => simp [skipSGRsplit]
      | cons c cs ih =>
        simp only [skipSGRsplit]
        split
        · simp
        · split
          · simp
          · simpa using Nat.le_succ_of_le ih
    have := hlen rest
    simp
    omega

/-- The inner scan of the word-wrap loop (utils.c:495-507) plus the break
decision and the skip-one-space step that follows it (utils.c:509-515,
536-540).  Arguments: remaining content bytes, the running visible count
`line_visible_len`, the consumed bytes of the current line in reverse
(`acc`, so `acc ≠ []` exactly when `scan > line_start`), and `last_break`
(the line up to the last space seen, with the bytes after that space).
Returns the finished line segment, the remaining content after the break
(with the space skipped when the break fell on one), and whether a space
was skipped. -/
def scan_go (w : Nat) : List Nat → Nat → List Nat → Option (List Nat × List Nat) →
    List Nat × List Nat × Bool
  | [], _, acc, _ => (acc.reverse, [], false)
  | b :: rest, count, acc, lb =>
    if w ≤ count then
      match lb with
      | some p => (p.1, p.2, true)
      | none =>
        if b = 32 then (acc.reverse, rest, true)
        else (acc.reverse, b :: rest, false)
    else
      let lb2 := if b = 32 ∧ acc ≠ [] then some (acc.reverse, rest) else lb
      if b = 27 ∧ rest.head? = some 91 then
        let p := skipSGRsplit rest.tail
        scan_go w p.2 count (p.1.reverse ++ 91 :: 27 :: acc) lb2
      else
        scan_go w rest (count + 1) (b :: acc) lb2
termination_by l _ _ _ => l.length
decreasing_by
  · have hlen : ∀ x : List Nat, (skipSGRsplit x).2.length ≤ x.length := by
      intro x
      induction x with
      | nil => simp [skipSGRsplit]
      | cons c cs ih =>
        simp only [skipSGRsplit]
        split
        · simp
        · split
          · simp
          · simpa using Nat.le_succ_of_le ih
    have := hlen rest.tail
    have h2 : rest.tail.length ≤ rest.length := by
      cases rest <;> simp
    simp
    omega
  · simp

/-- One line of the wrap: scan from the start of the remaining content. -/
def scan_line (w : Nat) (l : List Nat) : List Nat × List Nat × Bool :=
  scan_go w l 0 [] none

/-- The outer wrap loop `while (line_start < content_end)`
(utils.c:490-541), yielding each line's content segment together with the
flag recording whether its break fell on a (skipped) space.  The C loop
always progresses when the wrap width is positive; the guard makes the
recursion well-founded for the degenerate width-0 case the program never
uses. -/
def wrap_go (w : Nat) (l : List Nat) : List (List Nat × Bool) :=
  if h : l = [] then []
  else
    let r := scan_line w l
    if h2 : r.2.1.length < l.length then
      (r.1, r.2.2) :: wrap_go w r.2.1
    else
      [(r.1, r.2.2)]
termination_by l.length

/-- `print_bordered_wrapped` (utils.c:432-541) as the list of physical
content lines it prints, each paired with its break-on-space flag.  The
wrap width is `min max_width 76` (utils.c:442-443).  A string whose visible
length already fits is printed as a single line via `print_bordered`
(utils.c:448-450).  Otherwise the leading ANSI prefix and the trailing
reset `ESC[0m` (when present) are re-applied around every wrapped
segment (utils.c:518-532). -/
def print_bordered_wrapped_chunks (s : List Nat) (max_width : Nat) :
    List (List Nat × Bool) :=
  let content_width := 76
  let wrap_width := min max_width content_width
  if visible_strlen s ≤ wrap_width then [(s, false)]
  else
    let ep := extract_prefix_go 0 [] s
    let hr : Bool := decide (4 ≤ s.length) && (s.drop (s.length - 4) == [27, 91, 48, 109])
    let sfx := if hr then [27, 91, 48, 109] else []
    let content := if hr then ep.2.take (ep.2.length - 4) else ep.2
    (wrap_go wrap_width content).map (fun p => (ep.1 ++ p.1 ++ sfx, p.2))

/-- The physical output lines of `print_bordered_wrapped`. -/
def print_bordered_wrapped_lines (s : List Nat) (max_width : Nat) : List (List Nat) :=
  (print_bordered_wrapped_chunks s max_width).map Prod.fst

/-- Concatenation of the visible content of the wrapped lines, inserting a
single space at each break that fell on a space — the reconstruction the
specification's wrap round-trip property talks about. -/
def wrap_join_visible : List (List Nat × Bool) → List Nat
  | [] => []
  | p :: rest => vis_content p.1 ++ (if p.2 then [32] else []) ++ wrap_join_visible rest

/-- `isspace` as consulted by `strtol`: space, horizontal tab, newline,
vertical tab, form feed, carriage return. -/
def is_space_char (c : Char) : Bool :=
  c == ' ' || c == '\t' || c == '\n' || c == Char.ofNat 11 || c == Char.ofNat 12 || c == '\r'

/-- Numeric value of a digit string. -/
def digits_val (l : List Char) : Int :=
  l.foldl (fun a c => a * 10 + (Int.ofNat (c.toNat - 48))) 0

/-- `strtol(str, &endptr, 10)`: skip whitespace, take an optional sign and a
maximal run of digits; on no conversion return 0 with `endptr` at the start
of the input.  The value is exact (`LONG_MAX` clamping on overflow is not
modelled; it never changes whether a conversion happened or where `endptr`
lands, which is all the ID parser's acceptance depends on). -/
def strtol10 (l : List Char) : Int × List Char :=
  let afterWs := l.dropWhile is_space_char
  let sign : Int × List Char :=
    match afterWs with
    | c :: rest =>
      if c = '-' then (-1, rest) else if c = '+' then (1, rest) else (1, c :: rest)
    | [] => (1, afterWs)
  let digits := sign.2.takeWhile Char.isDigit
  let rest := sign.2.dropWhile Char.isDigit
  if digits = [] then (0, l)
  else (sign.1 * digits_val digits, rest)

/-- The per-token trimming of `parse_ids` (cli.c:261-267): skip leading
spaces, then cut trailing spaces (the C guard `end > token` never matters
because after the leading skip a nonempty token starts with a non-space). -/
def trim_elem (tok : List Char) : List Char :=
  ((tok.dropWhile (fun c => c == ' ')).reverse.dropWhile (fun c => c == ' ')).reverse

/-- Validation of one bracket-list token (cli.c:269-280): empty after
trimming is an error; otherwise `strtol` must consume the whole token and
yield a positive value. -/
def parse_one_id (tok : List Char) : Except String Int :=
  if (trim_elem tok).length = 0 then .error "Error: Empty ID in list"
  else
    if (strtol10 (trim_elem tok)).2 ≠ [] ∨ (strtol10 (trim_elem tok)).1 ≤ 0 then
      .error "Error: Invalid ID"
    else .ok (strtol10 (trim_elem tok)).1

/-- The `strtok` loop of `parse_ids` (cli.c:259-292): validate each token
in order, failing once `MAX_IDS` = 100 IDs are already stored when another
valid one arrives. -/
def parse_ids_loop : List (List Char) → Nat → List Int → Except String (List Int)
  | [], _, acc => .ok acc.reverse
  | tok :: rest, count, acc =>
    match parse_one_id tok with
    | .error e => .error e
    | .ok v =>
      if 100 ≤ count then .error "Error: Too many IDs (max 100)"
      else parse_ids_loop rest (count + 1) (v :: acc)

/-- `parse_ids` (cli.c:233-315).  The bracket branch requires length ≥ 3
and a closing `]`, strips the brackets, and tokenises the interior with
`strtok(copy, ",")` — whose tokens are exactly the nonempty fragments
between commas (runs of commas collapse; leading/trailing commas are
ignored).  An empty token list after the loop is the
`No IDs provided in brackets` error.  A non-bracket argument is a single
ID parsed with the same `strtol` checks. -/
def parse_ids (arg : List Char) : Except String (List Int) :=
  if arg.length = 0 then .error "Error: No ID provided"
  else if arg.head? = some '[' then
    if arg.length < 3 ∨ arg.getLast? ≠ some ']' then
      .error "Error: Invalid bracket syntax. Use [1,2,3]"
    else
      let interior := (arg.drop 1).dropLast
      let tokens := (interior.splitOn ',').filter (fun t => t ≠ [])
      match parse_ids_loop tokens 0 [] with
      | .error e => .error e
      | .ok ids =>
        if ids.length = 0 then .error "Error: No IDs provided in brackets"
        else .ok ids
  else
    let p := strtol10 arg
    if p.2 ≠ [] ∨ p.1 ≤ 0 then .error "Error: Invalid ID"
    else .ok [p.1]

/-- A bracket-list element as the (amended) specification describes it:
optional leading whitespace, an optional `+` sign, a nonempty digit run of
positive value, optional trailing spaces. -/
def valid_elem (e : List Char) : Prop :=
  ∃ w1 s d w2, e = w1 ++ s ++ d ++ w2 ∧
    (∀ c ∈ w1, is_space_char c) ∧
    (s = [] ∨ s = ['+']) ∧
    d ≠ [] ∧ (∀ c ∈ d, c.isDigit) ∧
    (∀ c ∈ w2, c = ' ') ∧
    0 < digits_val d

/-- A well-formed bracket argument per the (amended) specification:
brackets around a comma-separated interior whose nonempty fragments —
empty fragments between, before or after commas are skipped, not
rejected — number between 1 and 100 and are each a `valid_elem`. -/
def valid_bracket_arg (arg : List Char) : Prop :=
  ∃ mid, arg = '[' :: mid ++ [']'] ∧
    1 ≤ ((mid.splitOn ',').filter (fun t => t ≠ [])).length ∧
    ((mid.splitOn ',').filter (fun t => t ≠ [])).length ≤ 100 ∧
    ∀ e ∈ (mid.splitOn ',').filter (fun t => t ≠ []), valid_elem e

/-- Byte-level reassembly of wrapped segments: the content of each line with
the skipped space restored at each break that fell on one. -/
def bytes_reassemble : List (List Nat × Bool) → List Nat
  | [] => []
  | p :: rest => p.1 ++ (if p.2 then [32] else []) ++ bytes_reassemble rest

/-- Visible reassembly of content segments, each viewed with the suffix the
renderer re-applies to its line. -/
def wrap_join_with (sfx : List Nat) : List (List Nat × Bool) → List Nat
  | [] => []
  | p :: rest => vis_content (p.1 ++ sfx) ++ (if p.2 then [32] else []) ++ wrap_join_with sfx rest

/-- A segment after which `vis_content` splits cleanly against any
continuation that does not begin with `[` (so no `ESC [` pair can form
across the seam). -/
def seg_safe (seg : List Nat) : Prop :=
  ∀ X, X.head? ≠ some 91 → vis_content (seg ++ X) = vis_content seg ++ vis_content X

/-- A segment after which `vis_content` splits cleanly against any
continuation whatsoever. -/
def seg_strong (seg : List Nat) : Prop :=
  ∀ X, vis_content (seg ++ X) = vis_content seg ++ vis_content X

/-- A segment contributing at most `n` to `visible_strlen` ahead of any
continuation. -/
def seg_bound (seg : List Nat) (n : Nat) : Prop :=
  ∀ X, visible_strlen (seg ++ X) ≤ n + visible_strlen X

/-- The hypotheses on a per-line suffix (either `[]` or the reset
`ESC[0m`) used throughout the wrap proofs. -/
def good_sfx (sfx : List Nat) : Prop :=
  (∀ c, 109 ∉ c → 0 ∉ c → visible_strlen (skipSGR (c ++ sfx)) = 0) ∧
  visible_strlen sfx = 0 ∧ vis_content sfx = [] ∧ sfx.head? ≠ some 91

/-- A concrete todo used by the counterexamples and witnesses. -/
def fixture_todo : Todo :=
  { id := 1
    title := "t"
    description := ""
    category := "General"
    priority := 2
    status := 0
    created_at := 0
    completed_at := 0
    due_date := 0
    repeat_days := 0
    repeat_months := 0
    spawned_next := 0 }

/-- C4: `update(id, ...)` changes only the provided fields: an absent
argument (NULL string, zero priority, zero due date) keeps the prior value,
and `id`, `status`, `completed_at`, `created_at`, `repeat_days`,
`repeat_months`, `spawned_next` are never changed by an update; rows with
other ids are untouched. -/
theorem db_update_only_provided_fields (st : Store) (id : Int)
    (title description category : Option String) (priority due_date : Int) (r : Todo)
    (hr : st.rows.find? (fun x => x.id == id) = some r)
    (hdue : 0 ≤ r.due_date) :
    ∃ st', db_update_todo st id title description category priority due_date = some st' ∧
      st'.next_id = st.next_id ∧
      (∀ x ∈ st.rows, x.id ≠ id → x ∈ st'.rows) ∧
      ∃ r' ∈ st'.rows,
        r'.id = r.id ∧ r'.status = r.status ∧ r'.completed_at = r.completed_at ∧
          r'.created_at = r.created_at ∧ r'.repeat_days = r.repeat_days ∧
          r'.repeat_months = r.repeat_months ∧ r'.spawned_next = r.spawned_next ∧
          (title = none → r'.title = r.title) ∧ (∀ s, title = some s → r'.title = s) ∧
          (description = none → r'.description = r.description) ∧
          (∀ s, description = some s → r'.description = s) ∧
          (category = none → r'.category = r.category) ∧
          (∀ s, category = some s → r'.category = s) ∧
          (priority = 0 → r'.priority = r.priority) ∧
          (0 < priority → r'.priority = priority) ∧
          (due_date = 0 → r'.due_date = r.due_date) ∧
          (0 < due_date → r'.due_date = due_date) := by
  have hrid : r.id = id := by simpa using List.find?_some hr
  have hrmem : r ∈ st.rows := List.mem_of_find?_eq_some hr
  unfold db_update_todo
  rw [hr]
  refine ⟨_, rfl, rfl, ?_, ?_⟩
  · intro x hx hxid
    refine List.mem_map.mpr ⟨x, hx, ?_⟩
    simp [hxid]
  · refine ⟨_, List.mem_map_of_mem _ hrmem,
      ?_, ?_, ?_, ?_, ?_, ?_, ?_, ?_, ?_, ?_, ?_, ?_, ?_, ?_, ?_, ?_, ?_⟩
    · simp [hrid]
    · simp [hrid]
    · simp [hrid]
    · simp [hrid]
    · simp [hrid]
    · simp [hrid]
    · simp [hrid]
    · intro h; subst h; simp [hrid]
    · intro s h; subst h; simp [hrid]
    · intro h; subst h; simp [hrid]
    · intro s h; subst h; simp [hrid]
    · intro h; subst h; simp [hrid]
    · intro s h; subst h; simp [hrid]
    · intro h; subst h; simp [hrid]
    · intro h; simp [hrid, if_pos h]
    · intro h; subst h; simp [hrid]
      omega
    · intro h; simp [hrid, if_pos h]

/-- Witness for C4 at a concrete store. -/
theorem db_update_only_provided_fields_witness :
    (List.find? (fun x => x.id == (1 : Int)) [fixture_todo] = some fixture_todo) ∧
      (0 ≤ fixture_todo.due_date) ∧
      ∃ st', db_update_todo { rows := [fixture_todo], next_id := 2 } 1
          (some "x") none none 0 0 = some st' ∧
        st'.next_id = 2 ∧
        (∀ x ∈ [fixture_todo], x.id ≠ 1 → x ∈ st'.rows) ∧
        ∃ r' ∈ st'.rows,
          r'.id = fixture_todo.id ∧ r'.status = fixture_todo.status ∧
            r'.completed_at = fixture_todo.completed_at ∧
            r'.created_at = fixture_todo.created_at ∧
            r'.repeat_days = fixture_todo.repeat_days ∧
            r'.repeat_months = fixture_todo.repeat_months ∧
            r'.spawned_next = fixture_todo.spawned_next ∧
            ((some "x" : Option String) = none → r'.title = fixture_todo.title) ∧
            (∀ s, (some "x" : Option String) = some s → r'.title = s) ∧
            ((none : Option String) = none → r'.description = fixture_todo.description) ∧
            (∀ s, (none : Option String) = some s → r'.description = s) ∧
            ((none : Option String) = none → r'.category = fixture_todo.category) ∧
            (∀ s, (none : Option String) = some s → r'.category = s) ∧
            ((0 : Int) = 0 → r'.priority = fixture_todo.priority) ∧
            ((0 : Int) < 0 → r'.priority = 0) ∧
            ((0 : Int) = 0 → r'.due_date = fixture_todo.due_date) ∧
            ((0 : Int) < 0 → r'.due_date = 0) := by
  refine ⟨rfl, by decide, ?_⟩
  exact db_update_only_provided_fields { rows := [fixture_todo], next_id := 2 } 1
    (some "x") none none 0 0 fixture_todo rfl (by decide)

/-- Helper: Complete on a present id performs its UPDATE and succeeds. -/
theorem db_complete_found (st : Store) (id : Int) (now : Int)
    (h : ∃ r ∈ st.rows, r.id = id) :
    db_complete_todo st id now = some { st with rows := st.rows.map (fun r =>
      if r.id == id then { r with status := 1, completed_at := now } else r) } := by
  obtain ⟨r0, hr0, hr0id⟩ := h
  have hany : st.rows.any (fun r => r.id == id) = true :=
    List.any_eq_true.mpr ⟨r0, hr0, by simp [hr0id]⟩
  unfold db_complete_todo
  rw [if_pos hany]

/-- C5 (amended): for an id present in the store, Complete succeeds any
number of times and leaves `status = Completed`; but every call — the
second included — re-sets `completed_at` to that call's current time. -/
theorem db_complete_twice (st : Store) (id : Int) (t1 t2 : Int)
    (h : ∃ r ∈ st.rows, r.id = id) :
    ∃ st1 st2, db_complete_todo st id t1 = some st1 ∧
      db_complete_todo st1 id t2 = some st2 ∧
      (∀ r ∈ st1.rows, r.id = id → r.status = 1 ∧ r.completed_at = t1) ∧
      (∀ r ∈ st2.rows, r.id = id → r.status = 1 ∧ r.completed_at = t2) := by
  obtain ⟨r0, hr0, hr0id⟩ := h
  have h1 := db_complete_found st id t1 ⟨r0, hr0, hr0id⟩
  set st1 : Store := { st with rows := st.rows.map (fun r =>
    if r.id == id then { r with status := 1, completed_at := t1 } else r) } with hst1
  have hr0mem1 : ∃ r ∈ st1.rows, r.id = id := by
    refine ⟨_, List.mem_map_of_mem _ hr0, ?_⟩
    simp [hr0id]
  have h2 := db_complete_found st1 id t2 hr0mem1
  refine ⟨st1, _, h1, h2, ?_, ?_⟩
  · intro r hrmem hrid
    obtain ⟨x, hx, hfx⟩ := List.mem_map.mp hrmem
    by_cases hxid : x.id = id
    · rw [← hfx]; simp [hxid]
    · exfalso
      rw [← hfx] at hrid
      simp [hxid] at hrid
  · intro r hrmem hrid
    obtain ⟨x, hx, hfx⟩ := List.mem_map.mp hrmem
    by_cases hxid : x.id = id
    · rw [← hfx]; simp [hxid]
    · exfalso
      rw [← hfx] at hrid
      simp [hxid] at hrid

/-- Witness for the amended C5 at a concrete store. -/
theorem db_complete_twice_witness :
    (∃ r ∈ ({ rows := [fixture_todo], next_id := 2 } : Store).rows, r.id = 1) ∧
      ∃ st1 st2, db_complete_todo { rows := [fixture_todo], next_id := 2 } 1 100 = some st1 ∧
        db_complete_todo st1 1 200 = some st2 ∧
        (∀ r ∈ st1.rows, r.id = 1 → r.status = 1 ∧ r.completed_at = 100) ∧
        (∀ r ∈ st2.rows, r.id = 1 → r.status = 1 ∧ r.completed_at = 200) := by
  refine ⟨⟨fixture_todo, by simp, rfl⟩, ?_⟩
  exact db_complete_twice { rows := [fixture_todo], next_id := 2 } 1 100 200
    ⟨fixture_todo, by simp, rfl⟩

/-- C5 counterexample: the claim says the second Complete call does not
change `completed_at`.  On the concrete store, the first call at time 100
stores `completed_at = 100`, and the second call at time 200 re-stores
`completed_at = 200 ≠ 100`. -/
theorem db_complete_second_call_changes_completed_at :
    ((db_complete_todo { rows := [fixture_todo], next_id := 2 } 1 100).map
        (fun s => s.rows.map Todo.completed_at) = some [100]) ∧
      (((db_complete_todo { rows := [fixture_todo], next_id := 2 } 1 100).bind
          (fun s => db_complete_todo s 1 200)).map
        (fun s => s.rows.map Todo.completed_at) = some [200]) ∧
      (100 : Int) ≠ 200 := by
  refine ⟨rfl, rfl, by decide⟩

/-- C9 (amended): `db_mark_spawned` reports success whether or not the id
exists — on an absent id it succeeds and leaves the store unchanged —
whereas `db_delete_todo` (like complete and uncomplete) reports not-found
for an absent id. -/
theorem db_mark_spawned_always_succeeds (st : Store) (id : Int) :
    (db_mark_spawned st id).isSome = true ∧
      ((∀ r ∈ st.rows, r.id ≠ id) → db_mark_spawned st id = some st) ∧
      ((∀ r ∈ st.rows, r.id ≠ id) → db_delete_todo st id = none) ∧
      ((∀ r ∈ st.rows, r.id ≠ id) → db_complete_todo st id 0 = none) ∧
      ((∀ r ∈ st.rows, r.id ≠ id) → db_uncomplete_todo st id = none) := by
  have habs : (∀ r ∈ st.rows, r.id ≠ id) →
      st.rows.any (fun r => r.id == id) = false := by
    intro h
    rw [List.any_eq_false]
    intro r hr
    simp [h r hr]
  refine ⟨rfl, ?_, ?_, ?_, ?_⟩
  · intro h
    unfold db_mark_spawned
    have hmap : ∀ l : List Todo, (∀ r ∈ l, r.id ≠ id) →
        l.map (fun r => if r.id == id then { r with spawned_next := 1 } else r) = l := by
      intro l hl
      induction l with
      | nil => rfl
      | cons a l ih =>
        simp only [List.map_cons]
        rw [if_neg (by simp [hl a (by simp)]), ih (fun r hr => hl r (by simp [hr]))]
    rw [hmap st.rows h]
  · intro h
    unfold db_delete_todo
    rw [if_neg]
    simp [habs h]
  · intro h
    unfold db_complete_todo
    rw [if_neg]
    simp [habs h]
  · intro h
    unfold db_uncomplete_todo
    rw [if_neg]
    simp [habs h]

/-- C9 counterexample: on a store without id 5, `db_mark_spawned` succeeds
(the claim demands a not-found error), while `db_delete_todo` does report
not-found. -/
theorem db_mark_spawned_absent_id_succeeds :
    db_mark_spawned { rows := [], next_id := 1 } 5 = some { rows := [], next_id := 1 } ∧
      db_delete_todo { rows := [], next_id := 1 } 5 = none := by
  exact ⟨rfl, rfl⟩

/-- Witness for the amended C9. -/
theorem db_mark_spawned_always_succeeds_witness :
    (db_mark_spawned { rows := [fixture_todo], next_id := 2 } 7).isSome = true ∧
      ((∀ r ∈ ({ rows := [fixture_todo], next_id := 2 } : Store).rows, r.id ≠ 7) →
        db_mark_spawned { rows := [fixture_todo], next_id := 2 } 7 =
          some { rows := [fixture_todo], next_id := 2 }) ∧
      ((∀ r ∈ ({ rows := [fixture_todo], next_id := 2 } : Store).rows, r.id ≠ 7) →
        db_delete_todo { rows := [fixture_todo], next_id := 2 } 7 = none) ∧
      ((∀ r ∈ ({ rows := [fixture_todo], next_id := 2 } : Store).rows, r.id ≠ 7) →
        db_complete_todo { rows := [fixture_todo], next_id := 2 } 7 0 = none) ∧
      ((∀ r ∈ ({ rows := [fixture_todo], next_id := 2 } : Store).rows, r.id ≠ 7) →
        db_uncomplete_todo { rows := [fixture_todo], next_id := 2 } 7 = none) := by
  exact db_mark_spawned_always_succeeds { rows := [fixture_todo], next_id := 2 } 7

/-- C2 (amended): `list(filter)` returns exactly the rows matching the
filter, ordered by priority descending and then `created_at` descending;
the relative order of rows equal on both keys is not specified by the code
(the SQL has no `id` tiebreak).  The executable model meets the full
contract of the SQL. -/
theorem db_get_todos_meets_contract (st : Store) (f : TodoFilter) :
    db_get_todos_post st f (db_get_todos st f) := by
  constructor
  · exact List.perm_insertionSort todo_order (st.rows.filter (todo_matches f))
  · exact List.sorted_insertionSort todo_order (st.rows.filter (todo_matches f))

/-- C2 counterexample: the claimed ordering adds an ascending-id tiebreak
that the SQL `ORDER BY priority DESC, created_at DESC` does not guarantee:
a result listing two rows with equal priority and equal `created_at` in
descending id order satisfies everything the code's query promises, yet
violates the claimed ordering. -/
theorem db_get_todos_id_tiebreak_not_guaranteed :
    ¬ (∀ (st : Store) (f : TodoFilter) (res : List Todo),
        db_get_todos_post st f res → res.Pairwise claim_order) := by
  intro hclaim
  have hpost : db_get_todos_post
      { rows := [fixture_todo, { fixture_todo with id := 2 }], next_id := 3 }
      { category := none, status := -1 }
      [{ fixture_todo with id := 2 }, fixture_todo] := by
    constructor
    · have hfilter :
          ([fixture_todo, { fixture_todo with id := 2 }].filter
            (todo_matches { category := none, status := -1 }))
          = [fixture_todo, { fixture_todo with id := 2 }] := rfl
      rw [hfilter]
      exact List.Perm.swap fixture_todo { fixture_todo with id := 2 } []
    · refine List.sorted_cons.mpr ⟨?_, ?_⟩
      · intro b hb
        simp only [List.mem_singleton] at hb
        subst hb
        right
        exact ⟨rfl, le_refl _⟩
      · exact List.sorted_singleton _
  have := hclaim _ _ _ hpost
  have hpair := (List.pairwise_cons.mp this).1 fixture_todo (by simp)
  rcases hpair with h1 | ⟨_, h2 | ⟨_, h3⟩⟩
  · exact absurd h1 (by decide)
  · exact absurd h2 (by decide)
  · exact absurd h3 (by decide)

/-- One Edit invocation keeps every row's id, keeps priorities positive,
and never clears a set due date; the id sequence of the table is
untouched. -/
theorem cli_edit_step_preserves (st : Store)
    (hnodup : (st.rows.map Todo.id).Nodup)
    (hprio : ∀ r ∈ st.rows, 0 < r.priority)
    (id : Int) (title description category : Option String) (priority due_date : Int) :
    ((cli_edit st id title description category priority due_date).rows.map Todo.id
        = st.rows.map Todo.id) ∧
      (∀ r' ∈ (cli_edit st id title description category priority due_date).rows,
        0 < r'.priority) ∧
      List.Forall₂ (fun r r' : Todo => r'.id = r.id ∧ (0 < r.due_date → 0 < r'.due_date))
        st.rows (cli_edit st id title description category priority due_date).rows := by
  have hrefl : ((st.rows.map Todo.id = st.rows.map Todo.id) ∧
      (∀ r' ∈ st.rows, 0 < r'.priority) ∧
      List.Forall₂ (fun r r' : Todo => r'.id = r.id ∧ (0 < r.due_date → 0 < r'.due_date))
        st.rows st.rows) :=
    ⟨rfl, hprio, List.forall₂_same.mpr (fun x _ => ⟨rfl, fun h => h⟩)⟩
  unfold cli_edit
  split
  · exact hrefl
  split
  · exact hrefl
  unfold db_update_todo
  cases hfind : st.rows.find? (fun r => r.id == id) with
  | none => exact hrefl
  | some current =>
    have hcmem : current ∈ st.rows := List.mem_of_find?_eq_some hfind
    have hcid : current.id = id := by simpa using List.find?_some hfind
    have hpoint : ∀ r ∈ st.rows,
        ((if r.id == id then
            { r with title := title.getD current.title,
                     description := description.getD current.description,
                     category := category.getD current.category,
                     priority := if 0 < priority then priority else current.priority,
                     due_date := if 0 < (if 0 < due_date then due_date else current.due_date)
                       then (if 0 < due_date then due_date else current.due_date) else 0 }
          else r) : Todo).id = r.id := by
      intro r _
      by_cases hrid : r.id = id <;> simp [hrid]
    refine ⟨?_, ?_, ?_⟩
    · simp only [List.map_map]
      apply List.map_congr_left
      intro r hr
      exact hpoint r hr
    · intro r' hr'
      obtain ⟨x, hx, hfx⟩ := List.mem_map.mp hr'
      subst hfx
      by_cases hxid : x.id = id
      · have hxc : x = current :=
          List.inj_on_of_nodup_map hnodup hx hcmem (by rw [hxid, hcid])
        simp only [hxid, beq_self_eq_true, if_true]
        by_cases hp : 0 < priority
        · simpa [hp] using hp
        · simpa [hp] using hprio current hcmem
      · simpa [hxid] using hprio x hx
    · rw [List.forall₂_map_right_iff]
      refine List.forall₂_same.mpr ?_
      intro x hx
      refine ⟨hpoint x hx, ?_⟩
      intro hxdue
      by_cases hxid : x.id = id
      · have hxc : x = current :=
          List.inj_on_of_nodup_map hnodup hx hcmem (by rw [hxid, hcid])
        subst hxc
        simp only [hxid, beq_self_eq_true, if_true]
        by_cases hd : 0 < due_date
        · simp [hd]
        · simp only [hd, if_false]
          simp [hxdue]
      · simp [hxid, hxdue]

/-- Composition of preservation relations across a sequence of edits. -/
theorem forall₂_due_comp {a b c : List Todo}
    (h1 : List.Forall₂ (fun r r' : Todo => r'.id = r.id ∧ (0 < r.due_date → 0 < r'.due_date)) a b)
    (h2 : List.Forall₂ (fun r r' : Todo => r'.id = r.id ∧ 0 < r'.priority ∧
      (0 < r.due_date → 0 < r'.due_date)) b c) :
    List.Forall₂ (fun r r' : Todo => r'.id = r.id ∧ 0 < r'.priority ∧
      (0 < r.due_date → 0 < r'.due_date)) a c := by
  induction h1 generalizing c with
  | nil =>
    cases h2
    exact List.Forall₂.nil
  | cons hab h1' ih =>
    cases h2 with
    | cons hbc h2' =>
      exact List.Forall₂.cons
        ⟨hbc.1.trans hab.1, hbc.2.1, fun h => hbc.2.2 (hab.2 h)⟩ (ih h2')

/-- C10: through the update interface, a set due date can never be cleared
and a stored priority can never become zero: after any sequence of Edit
operations, every row keeps its id, retains a positive priority, and —
whenever its due date was set — still has a due date set.  (Zero priority
and zero due date are the encodings of "not provided", so neither field can
be reset through Edit.) -/
theorem cli_edit_seq_never_clears_due_or_priority (st : Store)
    (hnodup : (st.rows.map Todo.id).Nodup)
    (hprio : ∀ r ∈ st.rows, 0 < r.priority) (ops : List EditOp) :
    List.Forall₂ (fun r r' : Todo => r'.id = r.id ∧ 0 < r'.priority ∧
      (0 < r.due_date → 0 < r'.due_date)) st.rows (cli_edit_seq st ops).rows := by
  induction ops generalizing st with
  | nil =>
    exact List.forall₂_same.mpr (fun x hx => ⟨rfl, hprio x hx, fun h => h⟩)
  | cons o rest ih =>
    have hstep := cli_edit_step_preserves st hnodup hprio o.id o.title o.description
      o.category o.priority o.due_date
    have hnodup1 : (((cli_edit st o.id o.title o.description o.category o.priority
        o.due_date).rows.map Todo.id)).Nodup := by
      rw [hstep.1]; exact hnodup
    have hseq : cli_edit_seq st (o :: rest) =
        cli_edit_seq (cli_edit st o.id o.title o.description o.category o.priority
          o.due_date) rest := rfl
    rw [hseq]
    exact forall₂_due_comp hstep.2.2 (ih _ hnodup1 hstep.2.1)

/-- Witness for C10 at a concrete store and edit sequence. -/
theorem cli_edit_seq_never_clears_witness :
    ((({ rows := [{ fixture_todo with due_date := 5 }], next_id := 2 } : Store).rows.map
        Todo.id).Nodup) ∧
      (∀ r ∈ ({ rows := [{ fixture_todo with due_date := 5 }], next_id := 2 } : Store).rows,
        0 < r.priority) ∧
      List.Forall₂ (fun r r' : Todo => r'.id = r.id ∧ 0 < r'.priority ∧
          (0 < r.due_date → 0 < r'.due_date))
        ({ rows := [{ fixture_todo with due_date := 5 }], next_id := 2 } : Store).rows
        (cli_edit_seq { rows := [{ fixture_todo with due_date := 5 }], next_id := 2 }
          [{ id := 1, title := none, description := none, category := none,
             priority := 0, due_date := 0 }]).rows := by
  refine ⟨by simp, ?_, ?_⟩
  · intro r hr
    simp only [List.mem_singleton] at hr
    subst hr
    decide
  · exact cli_edit_seq_never_clears_due_or_priority _ (by simp)
      (by intro r hr; simp only [List.mem_singleton] at hr; subst hr; decide) _

/-- The catch-up loop reaches `now` whenever the step strictly increases
and the fuel covers the distance. -/
theorem catch_up_ge (step : Int → Int) (now : Int) (hstep : ∀ t, t < step t) :
    ∀ (n : Nat) (d : Int), now ≤ d + n → now ≤ catch_up step now n d := by
  intro n
  induction n with
  | zero =>
    intro d h
    simpa using h
  | succ n ih =>
    intro d h
    unfold catch_up
    split
    · apply ih
      have := hstep d
      push_cast at h ⊢
      omega
    · omega

/-- The due date computed by the recurrence engine is never earlier than
`now`, for both the day-interval and the calendar-month step. -/
theorem spawn_next_due_ge (am : Int → Int → Int) (now : Int) (t : Todo)
    (ham : ∀ x m, 0 < m → x < am x m)
    (hsel : needs_spawn now t = true) : now ≤ spawn_next_due am now t := by
  unfold spawn_next_due
  split
  · next hrd =>
    apply catch_up_ge _ _ (fun x => by omega)
    have := Int.self_le_toNat (now - (t.due_date + t.repeat_days * 86400))
    omega
  · next hrd =>
    have hrm : 0 < t.repeat_months := by
      simp only [needs_spawn, Bool.and_eq_true, Bool.or_eq_true,
        decide_eq_true_eq, beq_iff_eq] at hsel
      rcases hsel.1.1 with h | h
      · exact absurd h hrd
      · exact h
    apply catch_up_ge _ _ (fun x => ham x t.repeat_months hrm)
    have := Int.self_le_toNat (now - am t.due_date t.repeat_months)
    omega

/-- `spawn_one` appends the successor and marks rows matching the
predecessor's id (the insert always succeeds in the model once ids are
positive). -/
theorem spawn_one_rows (am : Int → Int → Int) (now : Int) (st : Store) (t : Todo)
    (hpos : 0 < st.next_id) :
    spawn_one am now st t =
      { rows := (st.rows ++ [spawn_child am now st.next_id t]).map
          (fun r => if r.id == t.id then { r with spawned_next := 1 } else r)
        next_id := st.next_id + 1 } := by
  simp only [spawn_one, db_add_todo, db_mark_spawned, spawn_child]
  rw [if_pos hpos]
  rfl

/-- The id sequence after `spawn_one`: the old ids followed by the fresh
rowid of the successor. -/
theorem spawn_one_ids (am : Int → Int → Int) (now : Int) (st : Store) (t : Todo) :
    (spawn_one am now st t).rows.map Todo.id = st.rows.map Todo.id ++ [st.next_id] := by
  by_cases hpos : 0 < st.next_id
  · rw [spawn_one_rows am now st t hpos]
    simp only [List.map_map, List.map_append]
    congr 1
    · apply List.map_congr_left
      intro r _
      by_cases hr : r.id = t.id <;> simp [hr]
    · by_cases hr : st.next_id = t.id <;> simp [hr, spawn_child]
  · simp only [spawn_one, db_add_todo, db_mark_spawned]
    rw [if_neg hpos]
    simp

/-- `spawn_one` bumps `next_id` by one. -/
theorem spawn_one_next_id (am : Int → Int → Int) (now : Int) (st : Store) (t : Todo) :
    (spawn_one am now st t).next_id = st.next_id + 1 := by
  simp only [spawn_one, db_add_todo, db_mark_spawned]
  split <;> rfl

/-- Freshness of ids is preserved by one spawn step. -/
theorem spawn_one_fresh (am : Int → Int → Int) (now : Int) (st : Store) (t : Todo)
    (hf : ∀ r ∈ st.rows, r.id < st.next_id) :
    ∀ r ∈ (spawn_one am now st t).rows, r.id < (spawn_one am now st t).next_id := by
  intro r hr
  have hid : r.id ∈ (spawn_one am now st t).rows.map Todo.id := List.mem_map_of_mem _ hr
  rw [spawn_one_ids] at hid
  rw [spawn_one_next_id]
  rcases List.mem_append.mp hid with h | h
  · obtain ⟨x, hx, hfx⟩ := List.mem_map.mp h
    have := hf x hx
    omega
  · simp only [List.mem_singleton] at h
    omega

/-- A row whose id differs from the processed predecessor's survives one
spawn step untouched. -/
theorem spawn_one_keeps (am : Int → Int → Int) (now : Int) (st : Store) (t : Todo)
    (r : Todo) (hr : r ∈ st.rows) (hne : r.id ≠ t.id) :
    r ∈ (spawn_one am now st t).rows := by
  by_cases hpos : 0 < st.next_id
  · rw [spawn_one_rows am now st t hpos]
    have : r ∈ st.rows ++ [spawn_child am now st.next_id t] := List.mem_append_left _ hr
    have hmem := List.mem_map_of_mem
      (fun x : Todo => if x.id == t.id then { x with spawned_next := 1 } else x) this
    simpa [hne] using hmem
  · simp only [spawn_one, db_add_todo, db_mark_spawned]
    rw [if_neg hpos]
    exact List.mem_append_left _ hr

/-- A row whose id does not occur among the processed predecessors survives
the whole pass untouched. -/
theorem spawn_fold_keeps (am : Int → Int → Int) (now : Int) :
    ∀ (l : List Todo) (st : Store) (r : Todo), r ∈ st.rows →
      (∀ t ∈ l, t.id ≠ r.id) →
      r ∈ (l.foldl (spawn_one am now) st).rows := by
  intro l
  induction l with
  | nil => intro st r hr _; exact hr
  | cons t l ih =>
    intro st r hr hne
    simp only [List.foldl_cons]
    exact ih _ r
      (spawn_one_keeps am now st t r hr (fun h => hne t (by simp) h.symm))
      (fun t' ht' => hne t' (by simp [ht']))

/-- Processing a snapshot containing the predecessor's id marks it
spawned. -/
theorem spawn_fold_marks (am : Int → Int → Int) (now : Int) :
    ∀ (l : List Todo) (st : Store) (T : Todo), 0 < st.next_id →
      (∀ r ∈ st.rows, r.id < st.next_id) → T ∈ st.rows →
      (l.map Todo.id).Nodup → (∃ t ∈ l, t.id = T.id) →
      { T with spawned_next := 1 } ∈ (l.foldl (spawn_one am now) st).rows := by
  intro l
  induction l with
  | nil =>
    intro st T _ _ _ _ hex
    obtain ⟨t, ht, _⟩ := hex
    exact absurd ht (by simp)
  | cons t l ih =>
    intro st T hpos hf hT hnodup hex
    simp only [List.foldl_cons]
    by_cases hid : t.id = T.id
    · have hmarked : { T with spawned_next := 1 } ∈ (spawn_one am now st t).rows := by
        rw [spawn_one_rows am now st t hpos]
        have : T ∈ st.rows ++ [spawn_child am now st.next_id t] := List.mem_append_left _ hT
        have hmem := List.mem_map_of_mem
          (fun x : Todo => if x.id == t.id then { x with spawned_next := 1 } else x) this
        simpa [hid.symm] using hmem
      apply spawn_fold_keeps am now l _ _ hmarked
      intro t' ht'
      have hnot : t.id ∉ l.map Todo.id := (List.nodup_cons.mp hnodup).1
      intro hcontra
      exact hnot (by rw [← hid] at hcontra; rw [← hcontra]; exact List.mem_map_of_mem _ ht')
    · apply ih _ T
      · rw [spawn_one_next_id]; omega
      · exact spawn_one_fresh am now st t hf
      · exact spawn_one_keeps am now st t T hT (fun h => hid (by rw [h]))
      · exact (List.nodup_cons.mp hnodup).2
      · obtain ⟨t0, ht0, ht0id⟩ := hex
        rcases List.mem_cons.mp ht0 with ht0 | ht0
        · rw [ht0] at ht0id
          exact absurd ht0id hid
        · exact ⟨t0, ht0, ht0id⟩

/-- Processing a snapshot containing `t0` inserts `t0`'s successor, which
survives the rest of the pass. -/
theorem spawn_fold_child (am : Int → Int → Int) (now : Int) :
    ∀ (l : List Todo) (st : Store) (t0 : Todo), 0 < st.next_id →
      (∀ r ∈ st.rows, r.id < st.next_id) → (∀ t ∈ l, t.id < st.next_id) → t0 ∈ l →
      ∃ nid, spawn_child am now nid t0 ∈ (l.foldl (spawn_one am now) st).rows := by
  intro l
  induction l with
  | nil =>
    intro st t0 _ _ _ h
    exact absurd h (by simp)
  | cons t l ih =>
    intro st t0 hpos hf hl ht0
    simp only [List.foldl_cons]
    rcases List.mem_cons.mp ht0 with ht0 | ht0
    · subst ht0
      refine ⟨st.next_id, ?_⟩
      have hchild : spawn_child am now st.next_id t0 ∈ (spawn_one am now st t0).rows := by
        rw [spawn_one_rows am now st t0 hpos]
        have : spawn_child am now st.next_id t0 ∈
            st.rows ++ [spawn_child am now st.next_id t0] :=
          List.mem_append_right _ (by simp)
        have hmem := List.mem_map_of_mem
          (fun x : Todo => if x.id == t0.id then { x with spawned_next := 1 } else x) this
        have hne : (spawn_child am now st.next_id t0).id ≠ t0.id := by
          have := hl t0 (by simp)
          simp only [spawn_child]
          omega
        simpa [hne] using hmem
      apply spawn_fold_keeps am now l _ _ hchild
      intro t' ht'
      have := hl t' (by simp [ht'])
      simp only [spawn_child]
      omega
    · apply ih _ t0
      · rw [spawn_one_next_id]; omega
      · exact spawn_one_fresh am now st t hf
      · intro t' ht'
        rw [spawn_one_next_id]
        have := hl t' (by simp [ht'])
        omega
      · exact ht0

/-- C1 (amended): one pass of the recurrence engine, for every todo `T`
selected by the needing-spawn predicate, inserts a successor copying `T`'s
title, description, category, priority and repeat fields whose computed due
date is *not earlier than* `now` (it can equal `now` exactly — the catch-up
loop stops as soon as the date is no longer `< now` — so "strictly in the
future" does not hold), and sets `spawned_next` on `T`; todos not
satisfying the predicate are left untouched.  `am` abstracts libc's
`localtime`/`mktime` month arithmetic, assumed strictly increasing. -/
theorem spawn_pass_spec (am : Int → Int → Int) (now : Int) (st : Store) (T : Todo)
    (ham : ∀ x m, 0 < m → x < am x m)
    (hnow : 0 < now)
    (hpos : 0 < st.next_id)
    (hfresh : ∀ r ∈ st.rows, r.id < st.next_id)
    (hnodup : (st.rows.map Todo.id).Nodup)
    (hT : T ∈ st.rows)
    (hsel : needs_spawn now T = true)
    (hprio : 0 < T.priority)
    (hrd : 0 ≤ T.repeat_days) (hrm : 0 ≤ T.repeat_months) :
    ({ T with spawned_next := 1 } ∈ (spawn_repeating_todos am now st).rows) ∧
      (∃ S ∈ (spawn_repeating_todos am now st).rows,
        S.title = T.title ∧ S.description = T.description ∧ S.category = T.category ∧
          S.priority = T.priority ∧ S.repeat_days = T.repeat_days ∧
          S.repeat_months = T.repeat_months ∧ S.status = 0 ∧ S.spawned_next = 0 ∧
          S.completed_at = 0 ∧ now ≤ S.due_date) ∧
      (∀ U ∈ st.rows, needs_spawn now U = false →
        U ∈ (spawn_repeating_todos am now st).rows) := by
  have hsubl : List.Sublist (db_get_todos_needing_spawn now st) st.rows := List.filter_sublist _
  have hlnodup : ((db_get_todos_needing_spawn now st).map Todo.id).Nodup :=
    hnodup.sublist (hsubl.map Todo.id)
  have hlfresh : ∀ t ∈ db_get_todos_needing_spawn now st, t.id < st.next_id :=
    fun t ht => hfresh t (hsubl.subset ht)
  have hTl : T ∈ db_get_todos_needing_spawn now st := List.mem_filter.mpr ⟨hT, hsel⟩
  refine ⟨?_, ?_, ?_⟩
  · exact spawn_fold_marks am now _ st T hpos hfresh hT hlnodup ⟨T, hTl, rfl⟩
  · obtain ⟨nid, hS⟩ := spawn_fold_child am now _ st T hpos hfresh hlfresh hTl
    refine ⟨spawn_child am now nid T, hS, ?_, ?_, ?_, ?_, ?_, ?_, ?_, ?_, ?_, ?_⟩
    · rfl
    · rfl
    · rfl
    · simp [spawn_child, if_pos hprio]
    · simp only [spawn_child]
      split_ifs <;> omega
    · simp only [spawn_child]
      split_ifs <;> omega
    · rfl
    · rfl
    · rfl
    · have hge := spawn_next_due_ge am now T ham hsel
      simp only [spawn_child]
      rw [if_pos (by omega)]
      exact hge
  · intro U hU hUfalse
    apply spawn_fold_keeps am now _ st U hU
    intro t ht hcontra
    obtain ⟨htmem, htsel⟩ := List.mem_filter.mp ht
    have : t = U := List.inj_on_of_nodup_map hnodup htmem hU hcontra
    rw [this] at htsel
    rw [htsel] at hUfalse
    exact absurd hUfalse (by simp)

/-- Witness for the amended C1 at a concrete one-row store. -/
theorem spawn_pass_spec_witness :
    ((∀ x m : Int, 0 < m → x < x + 2592000 * m) ∧
      needs_spawn 100000 { fixture_todo with due_date := 13600, repeat_days := 1 } = true) ∧
      (({ fixture_todo with due_date := 13600, repeat_days := 1, spawned_next := 1 } ∈
          (spawn_repeating_todos (fun x m => x + 2592000 * m) 100000
            { rows := [{ fixture_todo with due_date := 13600, repeat_days := 1 }],
              next_id := 2 }).rows) ∧
        (∃ S ∈ (spawn_repeating_todos (fun x m => x + 2592000 * m) 100000
            { rows := [{ fixture_todo with due_date := 13600, repeat_days := 1 }],
              next_id := 2 }).rows,
          S.title = ({ fixture_todo with due_date := 13600, repeat_days := 1 } : Todo).title ∧
            S.description =
              ({ fixture_todo with due_date := 13600, repeat_days := 1 } : Todo).description ∧
            S.category =
              ({ fixture_todo with due_date := 13600, repeat_days := 1 } : Todo).category ∧
            S.priority =
              ({ fixture_todo with due_date := 13600, repeat_days := 1 } : Todo).priority ∧
            S.repeat_days =
              ({ fixture_todo with due_date := 13600, repeat_days := 1 } : Todo).repeat_days ∧
            S.repeat_months =
              ({ fixture_todo with due_date := 13600, repeat_days := 1 } : Todo).repeat_months ∧
            S.status = 0 ∧ S.spawned_next = 0 ∧ S.completed_at = 0 ∧
            (100000 : Int) ≤ S.due_date) ∧
        (∀ U, U ∈ ({ rows := [{ fixture_todo with due_date := 13600, repeat_days := 1 }],
                     next_id := 2 } : Store).rows → needs_spawn 100000 U = false →
          U ∈ (spawn_repeating_todos (fun x m => x + 2592000 * m) 100000
            { rows := [{ fixture_todo with due_date := 13600, repeat_days := 1 }],
              next_id := 2 }).rows)) := by
  refine ⟨⟨fun x m hm => by omega, by decide⟩, ?_⟩
  exact spawn_pass_spec (fun x m => x + 2592000 * m) 100000
    { rows := [{ fixture_todo with due_date := 13600, repeat_days := 1 }], next_id := 2 }
    { fixture_todo with due_date := 13600, repeat_days := 1 }
    (fun x m hm => by show x < x + 2592000 * m; omega) (by decide) (by decide)
    (by intro r hr; simp only [List.mem_singleton] at hr; subst hr; decide)
    (by simp) (by simp) (by decide) (by decide) (by decide) (by decide)

/-- C1 counterexample: with `now = 100000` and a daily repeat whose due
date is exactly one day in the past, the computed successor due date equals
`now` — the pass selects the todo, yet no row of the resulting store has a
due date strictly greater than `now`, so the claimed "due_date strictly in
the future" fails. -/
theorem spawn_successor_not_strictly_future :
    needs_spawn 100000 { fixture_todo with due_date := 13600, repeat_days := 1 } = true ∧
      (∀ S ∈ (spawn_repeating_todos (fun x _ => x + 2592000) 100000
          { rows := [{ fixture_todo with due_date := 13600, repeat_days := 1 }],
            next_id := 2 }).rows, ¬ (100000 < S.due_date)) := by
  constructor
  · decide
  · decide

/-- C3 (amended): an Add command with an empty title prints
`Error: Title is required` to stderr and inserts nothing — the add itself
leaves the store unchanged, and the command then falls through to the
automatic list view (whose only store effect is the recurrence pass) and
exits with code 0, not 1. -/
theorem cli_run_add_empty_title (am : Int → Int → Int) (st : Store)
    (description category : Option String) (priority due_date : Int)
    (repeat_days repeat_months : Int) (now : Int) :
    cli_run_add am st (some "") description category priority due_date
        repeat_days repeat_months now =
      (spawn_repeating_todos am now st, 0, ["Error: Title is required"]) ∧
      (db_get_todos_needing_spawn now st = [] →
        cli_run_add am st (some "") description category priority due_date
            repeat_days repeat_months now = (st, 0, ["Error: Title is required"])) := by
  have h1 : cli_run_add am st (some "") description category priority due_date
      repeat_days repeat_months now =
      (spawn_repeating_todos am now st, 0, ["Error: Title is required"]) := rfl
  refine ⟨h1, ?_⟩
  intro hempty
  rw [h1]
  unfold spawn_repeating_todos
  rw [hempty]
  rfl

/-- Witness for the amended C3 at the empty store. -/
theorem cli_run_add_empty_title_witness :
    (cli_run_add (fun x _ => x) { rows := [], next_id := 1 } (some "") none none 0 0 0 0 50 =
        (spawn_repeating_todos (fun x _ => x) 50 { rows := [], next_id := 1 }, 0,
          ["Error: Title is required"]) ∧
      (db_get_todos_needing_spawn 50 { rows := [], next_id := 1 } = [] →
        cli_run_add (fun x _ => x) { rows := [], next_id := 1 } (some "") none none 0 0 0 0 50 =
          ({ rows := [], next_id := 1 }, 0, ["Error: Title is required"]))) := by
  exact cli_run_add_empty_title (fun x _ => x) { rows := [], next_id := 1 } none none 0 0 0 0 50

/-- C3 counterexample: on the empty store, `add -a ""` prints the error and
inserts nothing, but the process exit code is 0, not the claimed 1. -/
theorem cli_run_add_empty_title_exit_code_is_zero :
    cli_run_add (fun x _ => x) { rows := [], next_id := 1 } (some "") none none 0 0 0 0 50 =
      ({ rows := [], next_id := 1 }, 0, ["Error: Title is required"]) ∧
      ¬ ((cli_run_add (fun x _ => x) { rows := [], next_id := 1 } (some "")
          none none 0 0 0 0 50).2.1 = 1) := by
  constructor
  · rfl
  · intro h
    simp only [cli_run_add, cli_add, cli_list_effect] at h
    exact absurd h (by decide)

/-- The numeric value of a digit string is nonnegative. -/
theorem digits_val_nonneg (l : List Char) : 0 ≤ digits_val l := by
  have haux : ∀ (xs : List Char) (a : Int), 0 ≤ a →
      0 ≤ xs.foldl (fun a c => a * 10 + (Int.ofNat (c.toNat - 48))) a := by
    intro xs
    induction xs with
    | nil => intro a ha; simpa using ha
    | cons c cs ih =>
      intro a ha
      simp only [List.foldl_cons]
      apply ih
      have : (0 : Int) ≤ Int.ofNat (c.toNat - 48) := Int.ofNat_nonneg _
      omega
  exact haux l 0 le_rfl

/-- A decimal digit is not whitespace. -/
theorem digit_not_space (c : Char) (h : c.isDigit = true) : is_space_char c = false := by
  unfold is_space_char
  have h1 : c ≠ ' ' := by intro he; subst he; exact absurd h (by decide)
  have h2 : c ≠ '\t' := by intro he; subst he; exact absurd h (by decide)
  have h3 : c ≠ '\n' := by intro he; subst he; exact absurd h (by decide)
  have h4 : c ≠ Char.ofNat 11 := by intro he; subst he; exact absurd h (by decide)
  have h5 : c ≠ Char.ofNat 12 := by intro he; subst he; exact absurd h (by decide)
  have h6 : c ≠ '\r' := by intro he; subst he; exact absurd h (by decide)
  simp [h1, h2, h3, h4, h5, h6]

/-- A decimal digit is not a plus or minus sign. -/
theorem digit_not_sign (c : Char) (h : c.isDigit = true) : c ≠ '+' ∧ c ≠ '-' := by
  constructor
  · intro he; subst he; exact absurd h (by decide)
  · intro he; subst he; exact absurd h (by decide)

/-- The per-token trim splits the token into spaces, core, spaces. -/
theorem trim_elem_decomp (tok : List Char) :
    ∃ a b, tok = a ++ trim_elem tok ++ b ∧ (∀ c ∈ a, c = ' ') ∧ (∀ c ∈ b, c = ' ') := by
  refine ⟨tok.takeWhile (fun c => c == ' '),
    ((tok.dropWhile (fun c => c == ' ')).reverse.takeWhile (fun c => c == ' ')).reverse,
    ?_, ?_, ?_⟩
  · have h1 : trim_elem tok ++
        ((tok.dropWhile (fun c => c == ' ')).reverse.takeWhile (fun c => c == ' ')).reverse =
        tok.dropWhile (fun c => c == ' ') := by
      unfold trim_elem
      rw [← List.reverse_append, List.takeWhile_append_dropWhile, List.reverse_reverse]
    rw [List.append_assoc, h1, List.takeWhile_append_dropWhile]
  · intro c hc
    have := List.mem_takeWhile_imp hc
    simpa using this
  · intro c hc
    rw [List.mem_reverse] at hc
    have := List.mem_takeWhile_imp hc
    simpa using this

/-- `strtol` consumes the whole input with a positive value exactly when the
input is whitespace, an optional `+`, and a nonempty positive digit run. -/
theorem strtol10_ok_iff (t : List Char) :
    (∃ v, 0 < v ∧ strtol10 t = (v, [])) ↔
      ∃ w s d, t = w ++ s ++ d ∧ (∀ c ∈ w, is_space_char c = true) ∧
        (s = [] ∨ s = ['+']) ∧ d ≠ [] ∧ (∀ c ∈ d, c.isDigit = true) ∧
        0 < digits_val d := by
  constructor
  · rintro ⟨v, hv, heq⟩
    have hsplit : t.takeWhile is_space_char ++ t.dropWhile is_space_char = t :=
      List.takeWhile_append_dropWhile _ _
    have hwmem : ∀ c ∈ t.takeWhile is_space_char, is_space_char c = true :=
      fun c hc => List.mem_takeWhile_imp hc
    simp only [strtol10] at heq
    rcases hws : t.dropWhile is_space_char with _ | ⟨c, rest⟩
    · rw [hws] at heq
      dsimp only at heq
      rw [List.takeWhile_nil, if_pos rfl] at heq
      have : (0 : Int) = v := congrArg Prod.fst heq
      omega
    · rw [hws] at heq
      dsimp only at heq
      by_cases hcm : c = '-'
      · rw [if_pos hcm] at heq
        by_cases hdnil : rest.takeWhile Char.isDigit = []
        · rw [if_pos hdnil] at heq
          have : (0 : Int) = v := congrArg Prod.fst heq
          omega
        · rw [if_neg hdnil] at heq
          have hvneg : -1 * digits_val (rest.takeWhile Char.isDigit) = v :=
            congrArg Prod.fst heq
          have := digits_val_nonneg (rest.takeWhile Char.isDigit)
          omega
      · rw [if_neg hcm] at heq
        by_cases hcp : c = '+'
        · rw [if_pos hcp] at heq
          by_cases hdnil : rest.takeWhile Char.isDigit = []
          · rw [if_pos hdnil] at heq
            have : (0 : Int) = v := congrArg Prod.fst heq
            omega
          · rw [if_neg hdnil] at heq
            have hval : 1 * digits_val (rest.takeWhile Char.isDigit) = v :=
              congrArg Prod.fst heq
            have hrest : rest.dropWhile Char.isDigit = [] := congrArg Prod.snd heq
            refine ⟨t.takeWhile is_space_char, ['+'], rest.takeWhile Char.isDigit,
              ?_, hwmem, Or.inr rfl, hdnil, ?_, ?_⟩
            · have hrestall : rest = rest.takeWhile Char.isDigit := by
                conv_lhs => rw [← List.takeWhile_append_dropWhile Char.isDigit rest]
                rw [hrest, List.append_nil]
              rw [List.append_assoc, ← hrestall]
              conv_lhs => rw [← hsplit, hws, hcp]
              simp
            · exact fun c hc => List.mem_takeWhile_imp hc
            · omega
        · rw [if_neg hcp] at heq
          by_cases hdnil : (c :: rest).takeWhile Char.isDigit = []
          · rw [if_pos hdnil] at heq
            have : (0 : Int) = v := congrArg Prod.fst heq
            omega
          · rw [if_neg hdnil] at heq
            have hval : 1 * digits_val ((c :: rest).takeWhile Char.isDigit) = v :=
              congrArg Prod.fst heq
            have hrest : (c :: rest).dropWhile Char.isDigit = [] := congrArg Prod.snd heq
            refine ⟨t.takeWhile is_space_char, [], (c :: rest).takeWhile Char.isDigit,
              ?_, hwmem, Or.inl rfl, hdnil, ?_, ?_⟩
            · have hrestall : c :: rest = (c :: rest).takeWhile Char.isDigit := by
                conv_lhs => rw [← List.takeWhile_append_dropWhile Char.isDigit (c :: rest)]
                rw [hrest, List.append_nil]
              rw [List.append_assoc, ← hrestall]
              conv_lhs => rw [← hsplit, hws]
              simp
            · exact fun c hc => List.mem_takeWhile_imp hc
            · omega
  · rintro ⟨w, s, d, rfl, hw, hs, hdnil, hdig, hdv⟩
    refine ⟨digits_val d, hdv, ?_⟩
    obtain ⟨c0, d', rfl⟩ : ∃ c0 d', d = c0 :: d' := by
      cases d with
      | nil => exact absurd rfl hdnil
      | cons c0 d' => exact ⟨c0, d', rfl⟩
    have hc0 : c0.isDigit = true := hdig c0 (by simp)
    have hafter : (w ++ s ++ (c0 :: d')).dropWhile is_space_char = s ++ (c0 :: d') := by
      rw [List.append_assoc, List.dropWhile_append_of_pos hw]
      rcases hs with hs | hs
      · subst hs
        simp only [List.nil_append]
        rw [List.dropWhile_cons_of_neg]
        simp [digit_not_space c0 hc0]
      · subst hs
        rw [List.cons_append, List.dropWhile_cons_of_neg (by decide)]
    simp only [strtol10]
    rw [hafter]
    have htake : (c0 :: d').takeWhile Char.isDigit = c0 :: d' :=
      List.takeWhile_eq_self_iff.mpr hdig
    have hdrop : (c0 :: d').dropWhile Char.isDigit = [] :=
      List.dropWhile_eq_nil_iff.mpr hdig
    rcases hs with hs | hs
    · subst hs
      simp only [List.nil_append]
      rw [if_neg (digit_not_sign c0 hc0).2, if_neg (digit_not_sign c0 hc0).1]
      rw [htake, hdrop, if_neg (by simp : ¬(c0 :: d' = [])), one_mul]
    · subst hs
      simp only [List.cons_append, List.nil_append]
      rw [if_neg (show ¬('+' = '-') by decide)]
      simp [htake, hdrop]

/-- Trimming a token of the valid shape exposes its core. -/
theorem trim_elem_of_shape (w1 s d w2 : List Char)
    (hw1 : ∀ c ∈ w1, is_space_char c = true)
    (hs : s = [] ∨ s = ['+'])
    (hd : d ≠ []) (hdig : ∀ c ∈ d, c.isDigit = true)
    (hw2 : ∀ c ∈ w2, c = ' ') :
    trim_elem (w1 ++ s ++ d ++ w2) = (w1.dropWhile (fun c => c == ' ')) ++ s ++ d := by
  obtain ⟨c0, d', rfl⟩ : ∃ c0 d', d = c0 :: d' := by
    cases d with
    | nil => exact absurd rfl hd
    | cons c0 d' => exact ⟨c0, d', rfl⟩
  have hc0 : c0.isDigit = true := hdig c0 (by simp)
  have hheadne : ∀ X, (s ++ (c0 :: d') ++ X).dropWhile (fun c => c == ' ') =
      s ++ (c0 :: d') ++ X := by
    intro X
    rcases hs with hs | hs
    · subst hs
      simp only [List.nil_append, List.cons_append]
      rw [List.dropWhile_cons_of_neg]
      have : c0 ≠ ' ' := by
        intro he; subst he; exact absurd hc0 (by decide)
      simp [this]
    · subst hs
      simp only [List.cons_append, List.nil_append]
      rw [List.dropWhile_cons_of_neg]
      decide
  have hstep1 : (w1 ++ s ++ (c0 :: d') ++ w2).dropWhile (fun c => c == ' ') =
      (w1.dropWhile (fun c => c == ' ')) ++ s ++ (c0 :: d') ++ w2 := by
    rw [List.append_assoc (w1 ++ s), List.append_assoc w1, List.dropWhile_append]
    split
    · next hE =>
      rw [List.isEmpty_iff] at hE
      rw [hE, List.nil_append]
      have := hheadne w2
      rw [List.append_assoc] at this ⊢
      exact this
    · rw [List.append_assoc, List.append_assoc]
  unfold trim_elem
  rw [hstep1]
  have hrevshape : ((w1.dropWhile (fun c => c == ' ')) ++ s ++ (c0 :: d') ++ w2).reverse =
      w2.reverse ++ ((c0 :: d').reverse ++ (s.reverse ++
        (w1.dropWhile (fun c => c == ' ')).reverse)) := by
    simp [List.reverse_append]
  rw [hrevshape]
  have hw2rev : ∀ c ∈ w2.reverse, (c == ' ') = true := by
    intro c hc
    rw [List.mem_reverse] at hc
    simp [hw2 c hc]
  rw [List.dropWhile_append_of_pos hw2rev]
  obtain ⟨c1, dr, hdr⟩ : ∃ c1 dr, (c0 :: d').reverse = c1 :: dr := by
    rcases hrev : (c0 :: d').reverse with _ | ⟨c1, dr⟩
    · have hlen := congrArg List.length hrev
      simp at hlen
    · exact ⟨c1, dr, rfl⟩
  have hc1 : c1.isDigit = true := by
    apply hdig
    rw [← List.mem_reverse, hdr]
    simp
  rw [hdr, List.cons_append, List.dropWhile_cons_of_neg]
  · rw [← List.cons_append, ← hdr]
    simp [List.reverse_append]
  · have : c1 ≠ ' ' := by
      intro he; subst he; exact absurd hc1 (by decide)
    simp [this]

/-- A bracket-list token is accepted exactly when it has the valid element
shape. -/
theorem parse_one_id_ok_iff (tok : List Char) :
    (∃ v, parse_one_id tok = .ok v) ↔ valid_elem tok := by
  constructor
  · rintro ⟨v, hv⟩
    unfold parse_one_id at hv
    by_cases hlen : (trim_elem tok).length = 0
    · rw [if_pos hlen] at hv
      exact absurd hv (by simp)
    · rw [if_neg hlen] at hv
      by_cases hcond : (strtol10 (trim_elem tok)).2 ≠ [] ∨ (strtol10 (trim_elem tok)).1 ≤ 0
      · rw [if_pos hcond] at hv
        exact absurd hv (by simp)
      · push_neg at hcond
        have hok : ∃ v0, 0 < v0 ∧ strtol10 (trim_elem tok) = (v0, []) := by
          refine ⟨(strtol10 (trim_elem tok)).1, by omega, ?_⟩
          rw [← hcond.1]
        obtain ⟨w, s, d, htrim, hw, hs, hd, hdig, hdv⟩ := (strtol10_ok_iff _).mp hok
        obtain ⟨a, b, htok, ha, hb⟩ := trim_elem_decomp tok
        refine ⟨a ++ w, s, d, b, ?_, ?_, hs, hd, hdig, hb, hdv⟩
        · rw [htok, htrim]
          simp [List.append_assoc]
        · intro c hc
          rcases List.mem_append.mp hc with hc | hc
          · rw [ha c hc]; decide
          · exact hw c hc
  · rintro ⟨w1, s, d, w2, rfl, hw1, hs, hd, hdig, hw2, hdv⟩
    have htrim := trim_elem_of_shape w1 s d w2 hw1 hs hd hdig hw2
    have hw1d : ∀ c ∈ w1.dropWhile (fun c => c == ' '), is_space_char c = true :=
      fun c hc => hw1 c ((List.dropWhile_sublist _).subset hc)
    have hok : ∃ v, 0 < v ∧
        strtol10 ((w1.dropWhile (fun c => c == ' ')) ++ s ++ d) = (v, []) :=
      (strtol10_ok_iff _).mpr ⟨_, s, d, rfl, hw1d, hs, hd, hdig, hdv⟩
    obtain ⟨v, hvpos, hveq⟩ := hok
    refine ⟨v, ?_⟩
    unfold parse_one_id
    rw [htrim, hveq]
    have hlen : ¬((w1.dropWhile (fun c => c == ' ')) ++ s ++ d).length = 0 := by
      simp only [List.length_append]
      have hdne : d.length ≠ 0 := by
        cases d with
        | nil => exact absurd rfl hd
        | cons x xs => simp
      omega
    rw [if_neg hlen, if_neg (by simp; omega)]

/-- The token loop succeeds exactly when every token is valid and the cap
is not exceeded. -/
theorem parse_ids_loop_ok_iff : ∀ (toks : List (List Char)) (acc : List Int),
    acc.length ≤ 100 →
    ((parse_ids_loop toks acc.length acc).isOk = true ↔
      ((∀ e ∈ toks, ∃ v, parse_one_id e = .ok v) ∧ acc.length + toks.length ≤ 100)) := by
  intro toks
  induction toks with
  | nil =>
    intro acc hacc
    simp [parse_ids_loop, hacc, Except.isOk, Except.toBool]
  | cons tok toks ih =>
    intro acc hacc
    unfold parse_ids_loop
    cases hp : parse_one_id tok with
    | error e =>
      constructor
      · intro h
        simp [Except.isOk, Except.toBool] at h
      · rintro ⟨hall, _⟩
        obtain ⟨v, hv⟩ := hall tok (by simp)
        rw [hp] at hv
        exact absurd hv (by simp)
    | ok v =>
      dsimp only
      by_cases hcap : 100 ≤ acc.length
      · rw [if_pos hcap]
        constructor
        · intro h
          simp [Except.isOk, Except.toBool] at h
        · rintro ⟨_, hle⟩
          simp only [List.length_cons] at hle
          omega
      · rw [if_neg hcap]
        have hrw : acc.length + 1 = (v :: acc).length := (List.length_cons v acc).symm
        rw [hrw]
        rw [ih (v :: acc) (by simp; omega)]
        constructor
        · rintro ⟨hall, hle⟩
          refine ⟨?_, ?_⟩
          · intro e he
            rcases List.mem_cons.mp he with he | he
            · exact ⟨v, he ▸ hp⟩
            · exact hall e he
          · simp only [List.length_cons] at hle ⊢
            omega
        · rintro ⟨hall, hle⟩
          refine ⟨fun e he => hall e (by simp [he]), ?_⟩
          simp only [List.length_cons] at hle ⊢
          omega

/-- A successful token loop returns one id per token. -/
theorem parse_ids_loop_length : ∀ (toks : List (List Char)) (acc ids : List Int),
    parse_ids_loop toks acc.length acc = .ok ids →
    ids.length = acc.length + toks.length := by
  intro toks
  induction toks with
  | nil =>
    intro acc ids h
    simp only [parse_ids_loop] at h
    cases h
    simp
  | cons tok toks ih =>
    intro acc ids h
    unfold parse_ids_loop at h
    cases hp : parse_one_id tok with
    | error e =>
      rw [hp] at h
      exact absurd h (by simp)
    | ok v =>
      rw [hp] at h
      dsimp only at h
      by_cases hcap : 100 ≤ acc.length
      · rw [if_pos hcap] at h
        exact absurd h (by simp)
      · rw [if_neg hcap] at h
        have hrw : acc.length + 1 = (v :: acc).length := (List.length_cons v acc).symm
        rw [hrw] at h
        have := ih (v :: acc) ids h
        simp only [List.length_cons] at this ⊢
        omega

/-- C8 (amended): a bracket-syntax ID argument parses successfully exactly
when it is a bracketed, comma-separated list whose nonempty fragments —
empty fragments produced by consecutive, leading or trailing commas are
skipped by the `strtok` tokenisation, not rejected — number between 1 and
100 and are each a positive integer, optionally preceded by whitespace and
an optional `+` sign and optionally followed by spaces; a whitespace-only
fragment, a missing closing bracket, a non-numeric or non-positive
fragment, an interior with no fragments at all, or more than 100 fragments
is rejected. -/
theorem parse_ids_bracket_iff (arg : List Char) (h : arg.head? = some '[') :
    (parse_ids arg).isOk = true ↔ valid_bracket_arg arg := by
  obtain ⟨rest, rfl⟩ : ∃ rest, arg = '[' :: rest := by
    cases arg with
    | nil => simp at h
    | cons c cs =>
      simp only [List.head?_cons, Option.some.injEq] at h
      exact ⟨cs, by rw [h]⟩
  unfold parse_ids
  rw [if_neg (by simp : ¬(('[' :: rest).length = 0)), if_pos h]
  by_cases hbad : ('[' :: rest).length < 3 ∨ ('[' :: rest).getLast? ≠ some ']'
  · rw [if_pos hbad]
    constructor
    · intro hfalse
      simp [Except.isOk, Except.toBool] at hfalse
    · rintro ⟨mid, hmid, h1, h2, h3⟩
      have hrest : rest = mid ++ [']'] := by
        injection hmid
      subst hrest
      rcases hbad with hlen | hlast
      · simp only [List.length_cons, List.length_append,
          List.length_nil] at hlen
        have hmid0 : mid = [] := List.eq_nil_of_length_eq_zero (by omega)
        subst hmid0
        simp [List.splitOn_nil] at h1
      · refine absurd ?_ hlast
        rw [← List.cons_append]
        exact List.getLast?_concat _
  · rw [if_neg hbad]
    push_neg at hbad
    obtain ⟨hlen3, hlast⟩ := hbad
    have hrne : rest ≠ [] := by
      intro h0
      subst h0
      simp only [List.length_cons, List.length_nil] at hlen3
      omega
    have hlast' : rest.getLast? = some ']' := by
      cases rest with
      | nil => exact absurd rfl hrne
      | cons r0 rest' =>
        rw [List.getLast?_cons_cons] at hlast
        exact hlast
    have hdecomp : rest.dropLast ++ [']'] = rest :=
      List.dropLast_append_getLast? ']' (Option.mem_def.mpr hlast')
    have hinterior : (('[' :: rest).drop 1).dropLast = rest.dropLast := by
      simp
    simp only [hinterior]
    cases hloop : parse_ids_loop
        (((rest.dropLast).splitOn ',').filter (fun t => t ≠ [])) 0 [] with
    | error e =>
      constructor
      · intro hfalse
        simp [Except.isOk, Except.toBool] at hfalse
      · rintro ⟨mid, hmid, h1, h2, h3⟩
        have hrest : rest = mid ++ [']'] := by
          injection hmid
        have hmid2 : mid = rest.dropLast :=
          List.append_cancel_right
            (show mid ++ [']'] = rest.dropLast ++ [']'] by rw [hdecomp, hrest])
        subst hmid2
        have hok : (parse_ids_loop
            (((rest.dropLast).splitOn ',').filter (fun t => t ≠ []))
            (List.length ([] : List Int)) []).isOk = true := by
          rw [(parse_ids_loop_ok_iff _ [] (by simp))]
          refine ⟨?_, by simpa using h2⟩
          intro e he
          exact (parse_one_id_ok_iff e).mpr (h3 e he)
        rw [show List.length ([] : List Int) = 0 from rfl, hloop] at hok
        simp [Except.isOk, Except.toBool] at hok
    | ok ids =>
      dsimp only
      have hlen := parse_ids_loop_length
        (((rest.dropLast).splitOn ',').filter (fun t => t ≠ [])) [] ids
      rw [show List.length ([] : List Int) = 0 from rfl] at hlen
      have hlen2 := hlen hloop
      by_cases hids : ids.length = 0
      · rw [if_pos hids]
        constructor
        · intro hfalse
          simp [Except.isOk, Except.toBool] at hfalse
        · rintro ⟨mid, hmid, h1, h2, h3⟩
          have hrest : rest = mid ++ [']'] := by
            injection hmid
          have hmid2 : mid = rest.dropLast :=
            List.append_cancel_right
              (show mid ++ [']'] = rest.dropLast ++ [']'] by
                rw [hdecomp, hrest])
          subst hmid2
          omega
      · rw [if_neg hids]
        have hok : (parse_ids_loop
            (((rest.dropLast).splitOn ',').filter (fun t => t ≠ []))
            (List.length ([] : List Int)) []).isOk = true := by
          rw [show List.length ([] : List Int) = 0 from rfl, hloop]
          rfl
        rw [(parse_ids_loop_ok_iff _ [] (by simp))] at hok
        obtain ⟨hall, hle⟩ := hok
        constructor
        · intro hx
          refine ⟨rest.dropLast, ?_, ?_, ?_, ?_⟩
          · rw [List.cons_append, hdecomp]
          · omega
          · simpa using hle
          · intro e he
            exact (parse_one_id_ok_iff e).mp (hall e he)
        · intro hx
          rfl

/-- C8 counterexample: the input `[1,,2]` contains an empty element between
the two commas, yet `parse_ids` accepts it and returns `[1, 2]`: `strtok`
skips empty fragments instead of rejecting them, so an empty element is not
an error as claimed. -/
theorem parse_ids_empty_element_accepted :
    parse_ids ['[', '1', ',', ',', '2', ']'] = Except.ok [1, 2] ∧
      ([] : List Char) ∈ (['1', ',', ',', '2'] : List Char).splitOn ',' :=
  ⟨rfl, by decide⟩

/-- Witness for the amended C8 theorem at the concrete argument `[1]`. -/
theorem parse_ids_bracket_iff_witness :
    (['[', '1', ']'] : List Char).head? = some '[' ∧
      valid_bracket_arg ['[', '1', ']'] :=
  ⟨rfl, (parse_ids_bracket_iff ['[', '1', ']'] rfl).mp rfl⟩

/-- The SGR skip never lengthens the remainder. -/
theorem skipSGRsplit_len : ∀ l : List Nat, (skipSGRsplit l).2.length ≤ l.length := by
  intro l
  induction l with
  | nil => simp [skipSGRsplit]
  | cons c cs ih =>
    simp only [skipSGRsplit]
    split
    · simp
    · split
      · simp
      · simpa using Nat.le_succ_of_le ih

/-- The SGR skip is a split: consumed part plus remainder reassemble the
input. -/
theorem skipSGRsplit_append : ∀ l : List Nat, (skipSGRsplit l).1 ++ (skipSGRsplit l).2 = l := by
  intro l
  induction l with
  | nil => simp [skipSGRsplit]
  | cons b rest ih =>
    simp only [skipSGRsplit]
    by_cases h0 : b = 0
    · rw [if_pos h0]
      simp
    · rw [if_neg h0]
      by_cases h109 : b = 109
      · rw [if_pos h109]
        simp [h109]
      · rw [if_neg h109]
        simpa using ih

/-- On a complete sequence body `c ++ m`, the skip consumes exactly through
the `m` byte. -/
theorem skipSGRsplit_terminated : ∀ (c X : List Nat), 109 ∉ c → 0 ∉ c →
    skipSGRsplit (c ++ 109 :: X) = (c ++ [109], X) := by
  intro c
  induction c with
  | nil =>
    intro X _ _
    simp [skipSGRsplit]
  | cons b c2 ih =>
    intro X hm h0
    have hb109 : b ≠ 109 := fun h => hm (by simp [h])
    have hb0 : b ≠ 0 := fun h => h0 (by simp [h])
    simp only [List.cons_append, skipSGRsplit, if_neg hb0, if_neg hb109,
      List.append_eq]
    rw [ih X (fun h => hm (List.mem_cons_of_mem _ h))
      (fun h => h0 (List.mem_cons_of_mem _ h))]

/-- A body with neither terminator nor NUL is consumed entirely. -/
theorem skipSGRsplit_all : ∀ c : List Nat, 109 ∉ c → 0 ∉ c →
    skipSGRsplit c = (c, []) := by
  intro c
  induction c with
  | nil =>
    intro _ _
    simp [skipSGRsplit]
  | cons b c2 ih =>
    intro hm h0
    have hb109 : b ≠ 109 := fun h => hm (by simp [h])
    have hb0 : b ≠ 0 := fun h => h0 (by simp [h])
    simp only [skipSGRsplit, if_neg hb0, if_neg hb109]
    rw [ih (fun h => hm (List.mem_cons_of_mem _ h))
      (fun h => h0 (List.mem_cons_of_mem _ h))]

/-- Trichotomy for the SGR skip: it finds a terminator, stops at a NUL, or
consumes the whole input. -/
theorem skipSGRsplit_cases : ∀ l : List Nat,
    (∃ c, 109 ∉ c ∧ 0 ∉ c ∧ l = c ++ 109 :: (skipSGRsplit l).2) ∨
    (0 ∈ l ∧ (skipSGRsplit l).2.head? = some 0) ∨
    (109 ∉ l ∧ 0 ∉ l ∧ skipSGRsplit l = (l, [])) := by
  intro l
  induction l with
  | nil =>
    right; right
    simp [skipSGRsplit]
  | cons b rest ih =>
    by_cases h0 : b = 0
    · right; left
      subst h0
      constructor
      · simp
      · simp [skipSGRsplit]
    · by_cases h109 : b = 109
      · left
        refine ⟨[], by simp, by simp, ?_⟩
        subst h109
        simp [skipSGRsplit]
      · have hsplit : skipSGRsplit (b :: rest) =
            (b :: (skipSGRsplit rest).1, (skipSGRsplit rest).2) := by
          simp [skipSGRsplit, if_neg h0, if_neg h109]
        rcases ih with ⟨c, hc109, hc0, hrest⟩ | ⟨hmem, hhd⟩ | ⟨hm, hz, heq⟩
        · left
          refine ⟨b :: c, ?_, ?_, ?_⟩
          · intro hx
            rcases List.mem_cons.mp hx with hx | hx
            · exact h109 hx.symm
            · exact hc109 hx
          · intro hx
            rcases List.mem_cons.mp hx with hx | hx
            · exact h0 hx.symm
            · exact hc0 hx
          · rw [hsplit]
            exact congrArg (b :: ·) hrest
        · right; left
          refine ⟨List.mem_cons_of_mem _ hmem, ?_⟩
          rw [hsplit]
          exact hhd
        · right; right
          refine ⟨?_, ?_, ?_⟩
          · intro hx
            rcases List.mem_cons.mp hx with hx | hx
            · exact h109 hx.symm
            · exact hm hx
          · intro hx
            rcases List.mem_cons.mp hx with hx | hx
            · exact h0 hx.symm
            · exact hz hx
          · rw [hsplit, heq]

/-- Unfolding: `vis_content` keeps an ordinary byte. -/
theorem vis_content_cons (b : Nat) (Y : List Nat) (h0 : b ≠ 0)
    (he : ¬(b = 27 ∧ Y.head? = some 91)) :
    vis_content (b :: Y) = b :: vis_content Y := by
  rw [vis_content]
  rw [if_neg h0, if_neg he]

/-- Unfolding: `vis_content` skips an `ESC [ ... m` sequence. -/
theorem vis_content_esc (Y : List Nat) (h : Y.head? = some 91) :
    vis_content (27 :: Y) = vis_content (skipSGR Y.tail) := by
  rw [vis_content]
  rw [if_neg (by decide : ¬(27 : Nat) = 0), if_pos ⟨rfl, h⟩]

/-- Unfolding: `visible_strlen` skips an `ESC [ ... m` sequence. -/
theorem visible_strlen_esc (Y : List Nat) (h : Y.head? = some 91) :
    visible_strlen (27 :: Y) = visible_strlen (skipSGR Y.tail) := by
  rw [visible_strlen]
  rw [if_neg (by decide : ¬(27 : Nat) = 0), if_pos ⟨rfl, h⟩]

/-- Unfolding: `visible_strlen` counts a visible byte. -/
theorem visible_strlen_cons_vis (b : Nat) (Y : List Nat) (h0 : b ≠ 0)
    (he : ¬(b = 27 ∧ Y.head? = some 91)) (hc : is_cont_byte b = false) :
    visible_strlen (b :: Y) = visible_strlen Y + 1 := by
  rw [visible_strlen]
  rw [if_neg h0, if_neg he, if_neg (by simp [hc])]

/-- Unfolding: `visible_strlen` does not count a continuation byte. -/
theorem visible_strlen_cons_cont (b : Nat) (Y : List Nat) (h0 : b ≠ 0)
    (he : ¬(b = 27 ∧ Y.head? = some 91)) (hc : is_cont_byte b = true) :
    visible_strlen (b :: Y) = visible_strlen Y := by
  rw [visible_strlen]
  rw [if_neg h0, if_neg he, if_pos hc]

/-- A complete SGR sequence is invisible to `vis_content`, whatever
follows. -/
theorem vis_content_atom (c : List Nat) (hm : 109 ∉ c) (h0 : 0 ∉ c)
    (X : List Nat) :
    vis_content ((27 :: 91 :: (c ++ [109])) ++ X) = vis_content X := by
  have h1 : (27 :: 91 :: (c ++ [109])) ++ X = 27 :: 91 :: (c ++ 109 :: X) := by
    simp
  rw [h1, vis_content_esc _ (by rfl)]
  show vis_content (skipSGR (c ++ 109 :: X)) = vis_content X
  rw [skipSGR, skipSGRsplit_terminated c X hm h0]

/-- A complete SGR sequence is invisible to `visible_strlen`, whatever
follows. -/
theorem visible_strlen_atom (c : List Nat) (hm : 109 ∉ c) (h0 : 0 ∉ c)
    (X : List Nat) :
    visible_strlen ((27 :: 91 :: (c ++ [109])) ++ X) = visible_strlen X := by
  have h1 : (27 :: 91 :: (c ++ [109])) ++ X = 27 :: 91 :: (c ++ 109 :: X) := by
    simp
  rw [h1, visible_strlen_esc _ (by rfl)]
  show visible_strlen (skipSGR (c ++ 109 :: X)) = visible_strlen X
  rw [skipSGR, skipSGRsplit_terminated c X hm h0]

/-- Prepending a terminator-free, NUL-free body and its terminating `m`
never decreases the visible length. -/
theorem visible_strlen_pre_term : ∀ (n : Nat) (c Z : List Nat), c.length ≤ n →
    109 ∉ c → 0 ∉ c → visible_strlen Z ≤ visible_strlen (c ++ 109 :: Z) := by
  intro n
  induction n with
  | zero =>
    intro c Z hn _ _
    have hc : c = [] := List.eq_nil_of_length_eq_zero (Nat.le_zero.mp hn)
    subst hc
    rw [List.nil_append,
      visible_strlen_cons_vis 109 Z (by decide)
        (fun h => absurd h.1 (by decide)) (by decide)]
    omega
  | succ n ih =>
    intro c Z hn hm h0
    cases c with
    | nil =>
      rw [List.nil_append,
        visible_strlen_cons_vis 109 Z (by decide)
          (fun h => absurd h.1 (by decide)) (by decide)]
      omega
    | cons b c2 =>
      have hb109 : b ≠ 109 := fun h => hm (by simp [h])
      have hb0 : b ≠ 0 := fun h => h0 (by simp [h])
      have hm2 : 109 ∉ c2 := fun h => hm (List.mem_cons_of_mem _ h)
      have h02 : 0 ∉ c2 := fun h => h0 (List.mem_cons_of_mem _ h)
      have hn2 : c2.length ≤ n := by
        simp only [List.length_cons] at hn
        omega
      rw [List.cons_append]
      by_cases hesc : b = 27 ∧ (c2 ++ 109 :: Z).head? = some 91
      · cases c2 with
        | nil =>
          exact absurd hesc.2 (by simp)
        | cons d c3 =>
          have hd : d = 91 := by
            have := hesc.2
            simp only [List.cons_append, List.head?_cons,
              Option.some.injEq] at this
            exact this
          subst hd
          rw [hesc.1, visible_strlen_esc _ (by simp)]
          have ht : ((91 : Nat) :: (c3 ++ 109 :: Z) : List Nat).tail =
              c3 ++ 109 :: Z := rfl
          rw [show ((91 :: c3 : List Nat) ++ 109 :: Z).tail = c3 ++ 109 :: Z by
            simp]
          rw [skipSGR, skipSGRsplit_terminated c3 Z
            (fun h => hm2 (List.mem_cons_of_mem _ h))
            (fun h => h02 (List.mem_cons_of_mem _ h))]
      · by_cases hc : is_cont_byte b = true
        · rw [visible_strlen_cons_cont b _ hb0 hesc hc]
          exact ih c2 Z hn2 hm2 h02
        · rw [visible_strlen_cons_vis b _ hb0 hesc (by simpa using hc)]
          exact Nat.le_succ_of_le (ih c2 Z hn2 hm2 h02)

/-- The SGR skip never increases the visible length. -/
theorem visible_strlen_skipSGR_le (Y : List Nat) :
    visible_strlen (skipSGR Y) ≤ visible_strlen Y := by
  rcases skipSGRsplit_cases Y with ⟨c, hc109, hc0, hY⟩ | ⟨hmem, hhd⟩ | ⟨hm, hz, heq⟩
  · conv_rhs => rw [hY]
    exact visible_strlen_pre_term c.length c _ (Nat.le_refl _) hc109 hc0
  · rw [skipSGR]
    cases hsk : (skipSGRsplit Y).2 with
    | nil => simp [visible_strlen]
    | cons b t =>
      have hb : b = 0 := by
        rw [hsk] at hhd
        simpa using hhd
      subst hb
      rw [visible_strlen]
      simp
  · rw [skipSGR, heq]
    simp [visible_strlen]

/-- One byte adds at most one to the visible length. -/
theorem visible_strlen_cons_le (b : Nat) (Y : List Nat) :
    visible_strlen (b :: Y) ≤ visible_strlen Y + 1 := by
  by_cases h0 : b = 0
  · subst h0
    rw [visible_strlen]
    simp
  · by_cases hesc : b = 27 ∧ Y.head? = some 91
    · cases Y with
      | nil => exact absurd hesc.2 (by simp)
      | cons d Y2 =>
        have hd : d = 91 := by simpa using hesc.2
        subst hd
        rw [hesc.1, visible_strlen_esc _ (by rfl)]
        have h1 : visible_strlen (skipSGR ((91 : Nat) :: Y2 : List Nat).tail) =
            visible_strlen (skipSGR Y2) := rfl
        rw [h1]
        have h2 := visible_strlen_skipSGR_le Y2
        have h3 : visible_strlen ((91 : Nat) :: Y2) = visible_strlen Y2 + 1 :=
          visible_strlen_cons_vis 91 Y2 (by decide)
            (fun h => absurd h.1 (by decide)) (by decide)
        omega
    · by_cases hc : is_cont_byte b = true
      · rw [visible_strlen_cons_cont b Y h0 hesc hc]
        omega
      · rw [visible_strlen_cons_vis b Y h0 hesc (by simpa using hc)]

/-- The visible length never exceeds the byte length. -/
theorem visible_strlen_le_length : ∀ (n : Nat) (Y : List Nat), Y.length ≤ n →
    visible_strlen Y ≤ Y.length := by
  intro n
  induction n with
  | zero =>
    intro Y hn
    have : Y = [] := List.eq_nil_of_length_eq_zero (Nat.le_zero.mp hn)
    subst this
    simp [visible_strlen]
  | succ n ih =>
    intro Y hn
    cases Y with
    | nil => simp [visible_strlen]
    | cons b R =>
      simp only [List.length_cons] at hn ⊢
      by_cases h0 : b = 0
      · subst h0
        rw [visible_strlen]
        simp
      · by_cases hesc : b = 27 ∧ R.head? = some 91
        · cases R with
          | nil => exact absurd hesc.2 (by simp)
          | cons d R2 =>
            have hd : d = 91 := by simpa using hesc.2
            subst hd
            rw [hesc.1, visible_strlen_esc _ (by rfl)]
            have h1 : visible_strlen (skipSGR ((91 : Nat) :: R2 : List Nat).tail) =
                visible_strlen (skipSGR R2) := rfl
            rw [h1]
            have h2 : (skipSGR R2).length ≤ R2.length := skipSGRsplit_len R2
            simp only [List.length_cons] at hn
            have h3 := ih (skipSGR R2) (by omega)
            have hf : ((91 : Nat) :: R2 : List Nat).length = R2.length + 1 := rfl
            omega
        · by_cases hc : is_cont_byte b = true
          · rw [visible_strlen_cons_cont b R h0 hesc hc]
            have := ih R (by omega)
            omega
          · rw [visible_strlen_cons_vis b R h0 hesc (by simpa using hc)]
            have := ih R (by omega)
            omega

/-- A visible-length bound weakens monotonically. -/
theorem seg_bound_mono {A : List Nat} {n m : Nat} (h : seg_bound A n)
    (hm : n ≤ m) : seg_bound A m := by
  intro X
  have := h X
  omega

/-- The empty segment splits against anything. -/
theorem seg_strong_nil : seg_strong [] := by
  intro X
  simp [vis_content]

/-- The empty segment is safe. -/
theorem seg_safe_nil : seg_safe [] := by
  intro X _
  simp [vis_content]

/-- The empty segment is invisible. -/
theorem seg_bound_nil : seg_bound [] 0 := by
  intro X
  simp

/-- A segment splitting against anything in particular splits against
continuations that do not start with `[`. -/
theorem seg_strong_safe {A : List Nat} (h : seg_strong A) : seg_safe A :=
  fun X _ => h X

/-- Appending a complete SGR sequence to a safe segment yields a segment
that splits against anything: the sequence seals the seam. -/
theorem seg_safe_atom {A c : List Nat} (hA : seg_safe A) (hm : 109 ∉ c)
    (h0 : 0 ∉ c) : seg_strong (A ++ 27 :: 91 :: (c ++ [109])) := by
  intro X
  have hhd : ∀ Y : List Nat, ((27 :: 91 :: (c ++ [109])) ++ Y).head? ≠ some 91 := by
    intro Y
    simp
  have h1 : (A ++ 27 :: 91 :: (c ++ [109])) ++ X =
      A ++ ((27 :: 91 :: (c ++ [109])) ++ X) := by
    simp
  rw [h1, hA _ (hhd X), vis_content_atom c hm h0 X]
  have h2 : vis_content (A ++ 27 :: 91 :: (c ++ [109])) = vis_content A := by
    have h3 : A ++ 27 :: 91 :: (c ++ [109]) =
        A ++ ((27 :: 91 :: (c ++ [109])) ++ []) := by
      simp
    rw [h3, hA _ (hhd []), vis_content_atom c hm h0 []]
    simp [vis_content]
  rw [h2]

/-- Appending a complete SGR sequence preserves a visible-length bound. -/
theorem seg_bound_atom {A c : List Nat} {n : Nat} (hA : seg_bound A n)
    (hm : 109 ∉ c) (h0 : 0 ∉ c) :
    seg_bound (A ++ 27 :: 91 :: (c ++ [109])) n := by
  intro X
  have h1 : (A ++ 27 :: 91 :: (c ++ [109])) ++ X =
      A ++ ((27 :: 91 :: (c ++ [109])) ++ X) := by
    simp
  rw [h1]
  have h2 := hA ((27 :: 91 :: (c ++ [109])) ++ X)
  rw [visible_strlen_atom c hm h0 X] at h2
  exact h2

/-- Appending one ordinary byte preserves safety, provided the segment is
strong when the byte is `[`. -/
theorem seg_safe_snoc {A : List Nat} {b : Nat} (hA : seg_safe A)
    (hstr : b = 91 → seg_strong A) (h0 : b ≠ 0) : seg_safe (A ++ [b]) := by
  have hsplit : ∀ Y : List Nat, vis_content (A ++ b :: Y) =
      vis_content A ++ vis_content (b :: Y) := by
    intro Y
    by_cases h91 : b = 91
    · exact hstr h91 (b :: Y)
    · exact hA (b :: Y) (by simpa using h91)
  intro X hX
  have h1 : (A ++ [b]) ++ X = A ++ b :: X := by simp
  rw [h1, hsplit X, vis_content_cons b X h0 (fun hh => hX hh.2)]
  have h2 : vis_content (A ++ [b]) = vis_content A ++ [b] := by
    rw [hsplit [], vis_content_cons b [] h0 (by simp), vis_content]
  rw [h2]
  simp

/-- Appending one ordinary byte other than ESC preserves strength. -/
theorem seg_strong_snoc {A : List Nat} {b : Nat} (hA : seg_safe A)
    (hstr : b = 91 → seg_strong A) (h0 : b ≠ 0) (h27 : b ≠ 27) :
    seg_strong (A ++ [b]) := by
  have hsplit : ∀ Y : List Nat, vis_content (A ++ b :: Y) =
      vis_content A ++ vis_content (b :: Y) := by
    intro Y
    by_cases h91 : b = 91
    · exact hstr h91 (b :: Y)
    · exact hA (b :: Y) (by simpa using h91)
  intro X
  have h1 : (A ++ [b]) ++ X = A ++ b :: X := by simp
  rw [h1, hsplit X, vis_content_cons b X h0 (fun hh => h27 hh.1)]
  have h2 : vis_content (A ++ [b]) = vis_content A ++ [b] := by
    rw [hsplit [], vis_content_cons b [] h0 (by simp), vis_content]
  rw [h2]
  simp

/-- Appending one byte raises a visible-length bound by at most one. -/
theorem seg_bound_snoc {A : List Nat} {n : Nat} {b : Nat}
    (hA : seg_bound A n) : seg_bound (A ++ [b]) (n + 1) := by
  intro X
  have h1 : (A ++ [b]) ++ X = A ++ b :: X := by simp
  rw [h1]
  have h2 := hA (b :: X)
  have h3 := visible_strlen_cons_le b X
  omega

/-- The empty per-line suffix satisfies the suffix hypotheses. -/
theorem good_sfx_nil : good_sfx [] := by
  refine ⟨?_, ?_, ?_, ?_⟩
  · intro c hm h0
    rw [List.append_nil, skipSGR, skipSGRsplit_all c hm h0]
    simp [visible_strlen]
  · simp [visible_strlen]
  · simp [vis_content]
  · simp

/-- The reset suffix `ESC[0m` satisfies the suffix hypotheses. -/
theorem good_sfx_reset : good_sfx [27, 91, 48, 109] := by
  refine ⟨?_, ?_, ?_, ?_⟩
  · intro c hm h0
    have h1 : c ++ [27, 91, 48, 109] = (c ++ [27, 91, 48]) ++ 109 :: [] := by
      simp
    rw [h1, skipSGR, skipSGRsplit_terminated (c ++ [27, 91, 48]) []
      (by
        intro hx
        rcases List.mem_append.mp hx with hx | hx
        · exact hm hx
        · simp at hx)
      (by
        intro hx
        rcases List.mem_append.mp hx with hx | hx
        · exact h0 hx
        · simp at hx)]
    simp [visible_strlen]
  · rw [visible_strlen_esc _ (by rfl)]
    show visible_strlen (skipSGR [48, 109]) = 0
    rw [skipSGR, show skipSGRsplit [48, 109] = ([48, 109], []) from rfl]
    simp [visible_strlen]
  · rw [vis_content_esc _ (by rfl)]
    show vis_content (skipSGR [48, 109]) = []
    rw [skipSGR, show skipSGRsplit [48, 109] = ([48, 109], []) from rfl]
    simp [vis_content]
  · simp

/-- Scan termination: no bytes left. -/
theorem scan_go_nil (w count : Nat) (acc : List Nat)
    (lb : Option (List Nat × List Nat)) :
    scan_go w [] count acc lb = (acc.reverse, [], false) := by
  simp [scan_go]

/-- Scan break at a recorded space position. -/
theorem scan_go_break_lb (w count : Nat) (b : Nat) (rest acc : List Nat)
    (p : List Nat × List Nat) (h : w ≤ count) :
    scan_go w (b :: rest) count acc (some p) = (p.1, p.2, true) := by
  simp [scan_go, if_pos h]

/-- Scan break exactly on a space with no recorded position. -/
theorem scan_go_break_space (w count : Nat) (rest acc : List Nat)
    (h : w ≤ count) :
    scan_go w (32 :: rest) count acc none = (acc.reverse, rest, true) := by
  simp [scan_go, if_pos h]

/-- Scan hard break with no recorded position. -/
theorem scan_go_break_hard (w count : Nat) (b : Nat) (rest acc : List Nat)
    (h : w ≤ count) (hb : b ≠ 32) :
    scan_go w (b :: rest) count acc none = (acc.reverse, b :: rest, false) := by
  simp [scan_go, if_pos h, hb]

/-- Scan consumes an `ESC [ ... m` sequence atomically. -/
theorem scan_go_esc (w count : Nat) (rest acc : List Nat)
    (lb : Option (List Nat × List Nat)) (h : ¬ w ≤ count)
    (hhd : rest.head? = some 91) :
    scan_go w (27 :: rest) count acc lb =
      scan_go w (skipSGRsplit rest.tail).2 count
        ((skipSGRsplit rest.tail).1.reverse ++ 91 :: 27 :: acc) lb := by
  conv_lhs => rw [scan_go.eq_def]
  dsimp only
  rw [if_neg h, if_pos ⟨rfl, hhd⟩]
  have h32 : ¬((27 : Nat) = 32 ∧ acc ≠ []) := fun hx => by
    exact absurd hx.1 (by decide)
  rw [if_neg h32]

/-- Scan consumes one ordinary byte. -/
theorem scan_go_step (w count : Nat) (b : Nat) (rest acc : List Nat)
    (lb : Option (List Nat × List Nat)) (h : ¬ w ≤ count)
    (hesc : ¬(b = 27 ∧ rest.head? = some 91)) :
    scan_go w (b :: rest) count acc lb =
      scan_go w rest (count + 1) (b :: acc)
        (if b = 32 ∧ acc ≠ [] then some (acc.reverse, rest) else lb) := by
  conv_lhs => rw [scan_go.eq_def]
  dsimp only
  rw [if_neg h, if_neg hesc]

/-- A good suffix disappears from the visible content of a safe segment. -/
theorem vis_content_append_good {A sfx : List Nat} (hA : seg_safe A)
    (h4 : sfx.head? ≠ some 91) (h3 : vis_content sfx = []) :
    vis_content (A ++ sfx) = vis_content A := by
  rw [hA sfx h4, h3, List.append_nil]

/-- The master invariant of the inner wrap scan: the scan splits its input
into a finished segment, an optional skipped space and a remainder; the
finished segment plus the per-line suffix stays within the wrap width; and
the visible content decomposes across the break. -/
theorem scan_go_spec (w : Nat) (hw : 1 ≤ w) (sfx : List Nat)
    (hsfx : good_sfx sfx) :
    ∀ (n : Nat) (l : List Nat) (count : Nat) (acc : List Nat)
      (lb : Option (List Nat × List Nat)),
      l.length ≤ n → 0 ∉ l → 0 ∉ acc → count ≤ w → (acc = [] → count = 0) →
      seg_bound acc.reverse count → seg_safe acc.reverse →
      (l.head? = some 91 → seg_strong acc.reverse) →
      (∀ p, lb = some p → p.1 ≠ [] ∧ seg_safe p.1 ∧ seg_bound p.1 w ∧
        p.1 ++ 32 :: p.2 = acc.reverse ++ l) →
      (scan_go w l count acc lb).1 ++
          (if (scan_go w l count acc lb).2.2 then [32] else []) ++
          (scan_go w l count acc lb).2.1 = acc.reverse ++ l ∧
        visible_strlen ((scan_go w l count acc lb).1 ++ sfx) ≤ w ∧
        vis_content ((acc.reverse ++ l) ++ sfx) =
          vis_content ((scan_go w l count acc lb).1 ++ sfx) ++
            (if (scan_go w l count acc lb).2.2 then [32] else []) ++
            vis_content ((scan_go w l count acc lb).2.1 ++ sfx) ∧
        ((scan_go w l count acc lb).1 ≠ [] ∨
          (scan_go w l count acc lb).2.2 = true ∨
          (scan_go w l count acc lb).2.1 = []) := by
  obtain ⟨hsfx1, hsfx2, hsfx3, hsfx4⟩ := hsfx
  intro n
  induction n with
  | zero =>
    intro l count acc lb hn h0l h0a hcw hac hbd hsafe hstr hlb
    have hl : l = [] := List.eq_nil_of_length_eq_zero (Nat.le_zero.mp hn)
    subst hl
    rw [scan_go_nil]
    refine ⟨by simp, ?_, ?_, by simp⟩
    · show visible_strlen (acc.reverse ++ sfx) ≤ w
      have h2 := hbd sfx
      omega
    · show vis_content ((acc.reverse ++ []) ++ sfx) =
        vis_content (acc.reverse ++ sfx) ++ [] ++ vis_content ([] ++ sfx)
      simp [hsfx3]
  | succ n ih =>
    intro l count acc lb hn h0l h0a hcw hac hbd hsafe hstr hlb
    cases l with
    | nil =>
      rw [scan_go_nil]
      refine ⟨by simp, ?_, ?_, by simp⟩
      · show visible_strlen (acc.reverse ++ sfx) ≤ w
        have h2 := hbd sfx
        omega
      · show vis_content ((acc.reverse ++ []) ++ sfx) =
          vis_content (acc.reverse ++ sfx) ++ [] ++ vis_content ([] ++ sfx)
        simp [hsfx3]
    | cons b rest =>
      have hb0 : b ≠ 0 := fun h => h0l (by rw [← h]; exact List.mem_cons_self b rest)
      have h0rest : 0 ∉ rest := fun h => h0l (List.mem_cons_of_mem _ h)
      simp only [List.length_cons] at hn
      by_cases hbreak : w ≤ count
      · have haccne : acc ≠ [] := by
          intro h
          have := hac h
          omega
        cases lb with
        | some p =>
          obtain ⟨hp1, hpsafe, hpbd, hpeq⟩ := hlb p rfl
          rw [scan_go_break_lb w count b rest acc p hbreak]
          refine ⟨?_, ?_, ?_, Or.inl hp1⟩
          · show p.1 ++ [32] ++ p.2 = acc.reverse ++ b :: rest
            rw [← hpeq]
            simp
          · show visible_strlen (p.1 ++ sfx) ≤ w
            have h2 := hpbd sfx
            omega
          · show vis_content ((acc.reverse ++ b :: rest) ++ sfx) =
              vis_content (p.1 ++ sfx) ++ [32] ++ vis_content (p.2 ++ sfx)
            rw [← hpeq]
            have h1 : (p.1 ++ 32 :: p.2) ++ sfx = p.1 ++ 32 :: (p.2 ++ sfx) := by
              simp
            rw [h1, hpsafe _ (by simp),
              vis_content_cons 32 _ (by decide) (fun hh => absurd hh.1 (by decide)),
              vis_content_append_good hpsafe hsfx4 hsfx3]
            simp
        | none =>
          by_cases hb32 : b = 32
          · subst hb32
            rw [scan_go_break_space w count rest acc hbreak]
            refine ⟨by simp, ?_, ?_, Or.inr (Or.inl rfl)⟩
            · show visible_strlen (acc.reverse ++ sfx) ≤ w
              have h2 := hbd sfx
              omega
            · show vis_content ((acc.reverse ++ 32 :: rest) ++ sfx) =
                vis_content (acc.reverse ++ sfx) ++ [32] ++ vis_content (rest ++ sfx)
              have h1 : (acc.reverse ++ 32 :: rest) ++ sfx =
                  acc.reverse ++ 32 :: (rest ++ sfx) := by
                simp
              rw [h1, hsafe _ (by simp),
                vis_content_cons 32 _ (by decide) (fun hh => absurd hh.1 (by decide)),
                vis_content_append_good hsafe hsfx4 hsfx3]
              simp
          · rw [scan_go_break_hard w count b rest acc hbreak hb32]
            refine ⟨by simp, ?_, ?_, Or.inl (by simpa using haccne)⟩
            · show visible_strlen (acc.reverse ++ sfx) ≤ w
              have h2 := hbd sfx
              omega
            · show vis_content ((acc.reverse ++ b :: rest) ++ sfx) =
                vis_content (acc.reverse ++ sfx) ++ [] ++
                  vis_content ((b :: rest) ++ sfx)
              have h1 : (acc.reverse ++ b :: rest) ++ sfx =
                  acc.reverse ++ b :: (rest ++ sfx) := by
                simp
              have hsplit : vis_content (acc.reverse ++ b :: (rest ++ sfx)) =
                  vis_content acc.reverse ++ vis_content (b :: (rest ++ sfx)) := by
                by_cases h91 : b = 91
                · exact hstr (by simp [h91]) _
                · exact hsafe _ (by simpa using h91)
              rw [h1, hsplit, vis_content_append_good hsafe hsfx4 hsfx3]
              simp
      · have hcount : count < w := Nat.not_le.mp hbreak
        have hlb2 : ∀ q,
            (if b = 32 ∧ acc ≠ [] then some (acc.reverse, rest) else lb) = some q →
            q.1 ≠ [] ∧ seg_safe q.1 ∧ seg_bound q.1 w ∧
            q.1 ++ 32 :: q.2 = acc.reverse ++ b :: rest := by
          intro q hq
          by_cases hc : b = 32 ∧ acc ≠ []
          · rw [if_pos hc] at hq
            have hqv : (acc.reverse, rest) = q := by
              injection hq
            subst hqv
            refine ⟨by simpa using hc.2, hsafe, seg_bound_mono hbd hcw, ?_⟩
            show acc.reverse ++ 32 :: rest = acc.reverse ++ b :: rest
            rw [hc.1]
          · rw [if_neg hc] at hq
            exact hlb q hq
        by_cases hesc : b = 27 ∧ rest.head? = some 91
        · obtain ⟨hb27, hhd⟩ := hesc
          subst hb27
          obtain ⟨rt, rfl⟩ : ∃ rt, rest = 91 :: rt := by
            cases rest with
            | nil => simp at hhd
            | cons x xs => exact ⟨xs, by rw [show x = 91 by simpa using hhd]⟩
          rw [scan_go_esc w count (91 :: rt) acc lb hbreak (by simp)]
          simp only [List.tail_cons]
          have h0rt : 0 ∉ rt := fun h => h0rest (List.mem_cons_of_mem _ h)
          rcases skipSGRsplit_cases rt with ⟨c, hc109, hc0, hrteq⟩ |
            ⟨hmem, _⟩ | ⟨hm109, h0rtx, heq⟩
          · have hR1 : (skipSGRsplit rt).1 = c ++ [109] := by
              conv_lhs => rw [hrteq]
              rw [skipSGRsplit_terminated c _ hc109 hc0]
            have hlen : (skipSGRsplit rt).2.length ≤ n := by
              have h2 := skipSGRsplit_len rt
              simp only [List.length_cons] at hn
              omega
            have haccrev : ((skipSGRsplit rt).1.reverse ++ 91 :: 27 :: acc).reverse =
                acc.reverse ++ 27 :: 91 :: (c ++ [109]) := by
              rw [hR1]
              simp
            have hframe : ((skipSGRsplit rt).1.reverse ++ 91 :: 27 :: acc).reverse ++
                (skipSGRsplit rt).2 = acc.reverse ++ 27 :: 91 :: rt := by
              rw [haccrev]
              conv_rhs => rw [hrteq]
              simp
            have h0acc2 : 0 ∉ (skipSGRsplit rt).1.reverse ++ 91 :: 27 :: acc := by
              intro hx
              rcases List.mem_append.mp hx with hx | hx
              · rw [List.mem_reverse] at hx
                apply h0rt
                rw [← skipSGRsplit_append rt]
                exact List.mem_append.mpr (Or.inl hx)
              · rcases List.mem_cons.mp hx with hx | hx
                · exact absurd hx (by decide)
                · rcases List.mem_cons.mp hx with hx | hx
                  · exact absurd hx (by decide)
                  · exact h0a hx
            have h0R2 : 0 ∉ (skipSGRsplit rt).2 := by
              intro hx
              apply h0rt
              rw [← skipSGRsplit_append rt]
              exact List.mem_append.mpr (Or.inr hx)
            have hstrong : seg_strong
                ((skipSGRsplit rt).1.reverse ++ 91 :: 27 :: acc).reverse := by
              rw [haccrev]
              exact seg_safe_atom hsafe hc109 hc0
            have hihres := ih (skipSGRsplit rt).2 count
              ((skipSGRsplit rt).1.reverse ++ 91 :: 27 :: acc) lb hlen h0R2 h0acc2
              hcw (by intro hx; exact absurd hx (by simp))
              (by rw [haccrev]; exact seg_bound_atom hbd hc109 hc0)
              (seg_strong_safe hstrong) (fun _ => hstrong)
              (by
                intro q hq
                obtain ⟨a1, a2, a3, a4⟩ := hlb q hq
                exact ⟨a1, a2, a3, by rw [hframe]; exact a4⟩)
            rw [hframe] at hihres
            exact hihres
          · exact absurd (List.mem_cons_of_mem _ hmem) h0rest
          · have heq1 : (skipSGRsplit rt).1 = rt := by rw [heq]
            have heq2 : (skipSGRsplit rt).2 = [] := by rw [heq]
            simp only [heq1, heq2, scan_go_nil]
            have haccrev : (rt.reverse ++ 91 :: 27 :: acc).reverse =
                acc.reverse ++ 27 :: 91 :: rt := by
              simp
            refine ⟨by simp, ?_, ?_, by simp⟩
            · show visible_strlen
                ((rt.reverse ++ 91 :: 27 :: acc).reverse ++ sfx) ≤ w
              rw [haccrev]
              have h1 : (acc.reverse ++ 27 :: 91 :: rt) ++ sfx =
                  acc.reverse ++ (27 :: 91 :: (rt ++ sfx)) := by
                simp
              rw [h1]
              have h2 := hbd (27 :: 91 :: (rt ++ sfx))
              have h3 : visible_strlen (27 :: 91 :: (rt ++ sfx)) =
                  visible_strlen (skipSGR (rt ++ sfx)) := by
                rw [visible_strlen_esc _ (by rfl)]
                rfl
              have h4 : visible_strlen (skipSGR (rt ++ sfx)) = 0 :=
                hsfx1 rt hm109 h0rtx
              omega
            · show vis_content ((acc.reverse ++ 27 :: 91 :: rt) ++ sfx) =
                vis_content
                  ((rt.reverse ++ 91 :: 27 :: acc).reverse ++ sfx) ++
                  [] ++ vis_content ([] ++ sfx)
              rw [haccrev]
              simp [hsfx3]
        · rw [scan_go_step w count b rest acc lb hbreak hesc]
          have hframe : (b :: acc).reverse ++ rest = acc.reverse ++ b :: rest := by
            simp
          have hihres := ih rest (count + 1) (b :: acc)
            (if b = 32 ∧ acc ≠ [] then some (acc.reverse, rest) else lb)
            (by omega)
            h0rest
            (by
              intro hx
              rcases List.mem_cons.mp hx with hx | hx
              · exact hb0 hx.symm
              · exact h0a hx)
            (by omega)
            (by intro hx; exact absurd hx (by simp))
            (by rw [List.reverse_cons]; exact seg_bound_snoc hbd)
            (by
              rw [List.reverse_cons]
              exact seg_safe_snoc hsafe (fun h91 => hstr (by simp [h91])) hb0)
            (by
              intro hhd91
              rw [List.reverse_cons]
              have hb27 : b ≠ 27 := fun h => hesc ⟨h, hhd91⟩
              exact seg_strong_snoc hsafe (fun h91 => hstr (by simp [h91])) hb0 hb27)
            (by
              intro q hq
              obtain ⟨a1, a2, a3, a4⟩ := hlb2 q hq
              exact ⟨a1, a2, a3, by rw [hframe]; exact a4⟩)
          rw [hframe] at hihres
          exact hihres

/-- The outer wrap loop on an empty remainder. -/
theorem wrap_go_nil_eq (w : Nat) : wrap_go w [] = [] := by
  rw [wrap_go]
  rw [dif_pos rfl]

/-- The outer wrap loop steps when the scan makes progress. -/
theorem wrap_go_cons_eq (w : Nat) (l : List Nat) (hl : l ≠ [])
    (hlt : (scan_line w l).2.1.length < l.length) :
    wrap_go w l = ((scan_line w l).1, (scan_line w l).2.2) ::
      wrap_go w (scan_line w l).2.1 := by
  conv_lhs => rw [wrap_go]
  rw [dif_neg hl, dif_pos hlt]

/-- Lines produced by the wrap loop fit in the width (with the per-line
suffix), and their visible reassembly with the suffix is the visible
content of the input followed by the suffix. -/
theorem wrap_go_spec (w : Nat) (hw : 1 ≤ w) (sfx : List Nat)
    (hsfx : good_sfx sfx) :
    ∀ (n : Nat) (l : List Nat), l.length ≤ n → 0 ∉ l →
      (∀ q ∈ wrap_go w l, visible_strlen (q.1 ++ sfx) ≤ w) ∧
      wrap_join_with sfx (wrap_go w l) = vis_content (l ++ sfx) := by
  intro n
  induction n with
  | zero =>
    intro l hn _
    have hl : l = [] := List.eq_nil_of_length_eq_zero (Nat.le_zero.mp hn)
    subst hl
    rw [wrap_go_nil_eq]
    refine ⟨by simp, ?_⟩
    show ([] : List Nat) = vis_content ([] ++ sfx)
    rw [List.nil_append, hsfx.2.2.1]
  | succ n ih =>
    intro l hn h0l
    by_cases hl : l = []
    · subst hl
      rw [wrap_go_nil_eq]
      refine ⟨by simp, ?_⟩
      show ([] : List Nat) = vis_content ([] ++ sfx)
      rw [List.nil_append, hsfx.2.2.1]
    · have hscan := scan_go_spec w hw sfx hsfx l.length l 0 [] none
        (Nat.le_refl _) h0l (by simp) (by omega) (fun _ => rfl)
        seg_bound_nil seg_safe_nil (fun _ => seg_strong_nil)
        (by intro p hp; exact absurd hp (by simp))
      obtain ⟨c1, c2, c3, c4⟩ := hscan
      simp only [List.reverse_nil, List.nil_append] at c1 c3
      have hc1 : (scan_line w l).1 ++
          (if (scan_line w l).2.2 then [32] else []) ++ (scan_line w l).2.1 = l := c1
      have hc2 : visible_strlen ((scan_line w l).1 ++ sfx) ≤ w := c2
      have hc3 : vis_content (l ++ sfx) =
          vis_content ((scan_line w l).1 ++ sfx) ++
            (if (scan_line w l).2.2 then [32] else []) ++
            vis_content ((scan_line w l).2.1 ++ sfx) := c3
      have hc4 : (scan_line w l).1 ≠ [] ∨ (scan_line w l).2.2 = true ∨
          (scan_line w l).2.1 = [] := c4
      by_cases hrest : (scan_line w l).2.1 = []
      · have hprog : (scan_line w l).2.1.length < l.length := by
          rw [hrest]
          simpa using List.length_pos.mpr hl
        rw [wrap_go_cons_eq w l hl hprog, hrest, wrap_go_nil_eq]
        refine ⟨?_, ?_⟩
        · intro q hq
          rcases List.mem_cons.mp hq with hq | hq
          · rw [hq]
            exact hc2
          · exact absurd hq (by simp)
        · show vis_content ((scan_line w l).1 ++ sfx) ++
            (if (scan_line w l).2.2 then [32] else []) ++ ([] : List Nat) =
            vis_content (l ++ sfx)
          rw [hc3, hrest]
          rw [List.nil_append, hsfx.2.2.1]
      · have hlen := congrArg List.length hc1
        simp only [List.length_append] at hlen
        have hprog : (scan_line w l).2.1.length < l.length := by
          rcases hc4 with h | h | h
          · have := List.length_pos.mpr h
            cases hfl : (scan_line w l).2.2 <;> rw [hfl] at hlen <;>
              simp at hlen <;> omega
          · rw [h] at hlen
            simp at hlen
            omega
          · exact absurd h hrest
        rw [wrap_go_cons_eq w l hl hprog]
        have h0rest : 0 ∉ (scan_line w l).2.1 := by
          intro hx
          apply h0l
          rw [← hc1]
          exact List.mem_append.mpr (Or.inr hx)
        obtain ⟨ihb, ihj⟩ := ih (scan_line w l).2.1 (by omega) h0rest
        refine ⟨?_, ?_⟩
        · intro q hq
          rcases List.mem_cons.mp hq with hq | hq
          · rw [hq]
            exact hc2
          · exact ihb q hq
        · show vis_content ((scan_line w l).1 ++ sfx) ++
            (if (scan_line w l).2.2 then [32] else []) ++
            wrap_join_with sfx (wrap_go w (scan_line w l).2.1) =
            vis_content (l ++ sfx)
          rw [ihj, hc3]

/-- Prefix extraction stops on an empty string. -/
theorem extract_prefix_go_nil (pl : Nat) (acc : List Nat) :
    extract_prefix_go pl acc [] = (acc, []) := by
  rw [extract_prefix_go]
  intro b r1 rest h
  simp at h

/-- Prefix extraction stops on a single byte. -/
theorem extract_prefix_go_one (pl : Nat) (acc : List Nat) (b : Nat) :
    extract_prefix_go pl acc [b] = (acc, [b]) := by
  rw [extract_prefix_go]
  intro b2 r1 rest h
  simp at h

/-- Prefix extraction stops at the first non-`ESC[` position. -/
theorem extract_prefix_go_stop (pl : Nat) (acc : List Nat) (b r1 : Nat)
    (rest : List Nat) (h : ¬(b = 27 ∧ r1 = 91)) :
    extract_prefix_go pl acc (b :: r1 :: rest) = (acc, b :: r1 :: rest) := by
  conv_lhs => rw [extract_prefix_go.eq_def]
  dsimp only
  rw [dif_neg h]

/-- Prefix extraction consumes one leading `ESC [ ... m` sequence, copying
it when the 63-byte cap allows. -/
theorem extract_prefix_go_esc (pl : Nat) (acc rest : List Nat) :
    extract_prefix_go pl acc (27 :: 91 :: rest) =
      if pl + (27 :: 91 :: (skipSGRsplit rest).1).length < 63 then
        extract_prefix_go (pl + (27 :: 91 :: (skipSGRsplit rest).1).length)
          (acc ++ 27 :: 91 :: (skipSGRsplit rest).1) (skipSGRsplit rest).2
      else extract_prefix_go pl acc (skipSGRsplit rest).2 := by
  conv_lhs => rw [extract_prefix_go.eq_def]
  dsimp only
  rw [dif_pos ⟨rfl, rfl⟩]

/-- Prefix extraction does not change the visible content of the
remainder-to-come. -/
theorem extract_prefix_go_vc : ∀ (n pl : Nat) (acc l : List Nat), l.length ≤ n →
    vis_content ((extract_prefix_go pl acc l).2) = vis_content l := by
  intro n
  induction n with
  | zero =>
    intro pl acc l hn
    have hl : l = [] := List.eq_nil_of_length_eq_zero (Nat.le_zero.mp hn)
    subst hl
    rw [extract_prefix_go_nil]
  | succ n ih =>
    intro pl acc l hn
    match l with
    | [] => rw [extract_prefix_go_nil]
    | [b] => rw [extract_prefix_go_one]
    | b :: r1 :: rest =>
      by_cases hesc : b = 27 ∧ r1 = 91
      · obtain ⟨hb, hr1⟩ := hesc
        subst hb
        subst hr1
        rw [extract_prefix_go_esc]
        have hvc : vis_content (27 :: 91 :: rest) =
            vis_content ((skipSGRsplit rest).2) := by
          rw [vis_content_esc _ (by rfl)]
          rfl
        have hlen : (skipSGRsplit rest).2.length ≤ n := by
          have := skipSGRsplit_len rest
          simp only [List.length_cons] at hn
          omega
        by_cases hcap : pl + (27 :: 91 :: (skipSGRsplit rest).1).length < 63
        · rw [if_pos hcap, ih _ _ _ hlen, hvc]
        · rw [if_neg hcap, ih _ _ _ hlen, hvc]
      · rw [extract_prefix_go_stop pl acc b r1 rest hesc]

/-- Prefix extraction does not change the visible length of the
remainder-to-come. -/
theorem extract_prefix_go_vs : ∀ (n pl : Nat) (acc l : List Nat), l.length ≤ n →
    visible_strlen ((extract_prefix_go pl acc l).2) = visible_strlen l := by
  intro n
  induction n with
  | zero =>
    intro pl acc l hn
    have hl : l = [] := List.eq_nil_of_length_eq_zero (Nat.le_zero.mp hn)
    subst hl
    rw [extract_prefix_go_nil]
  | succ n ih =>
    intro pl acc l hn
    match l with
    | [] => rw [extract_prefix_go_nil]
    | [b] => rw [extract_prefix_go_one]
    | b :: r1 :: rest =>
      by_cases hesc : b = 27 ∧ r1 = 91
      · obtain ⟨hb, hr1⟩ := hesc
        subst hb
        subst hr1
        rw [extract_prefix_go_esc]
        have hvs : visible_strlen (27 :: 91 :: rest) =
            visible_strlen ((skipSGRsplit rest).2) := by
          rw [visible_strlen_esc _ (by rfl)]
          rfl
        have hlen : (skipSGRsplit rest).2.length ≤ n := by
          have := skipSGRsplit_len rest
          simp only [List.length_cons] at hn
          omega
        by_cases hcap : pl + (27 :: 91 :: (skipSGRsplit rest).1).length < 63
        · rw [if_pos hcap, ih _ _ _ hlen, hvs]
        · rw [if_neg hcap, ih _ _ _ hlen, hvs]
      · rw [extract_prefix_go_stop pl acc b r1 rest hesc]

/-- The remainder returned by prefix extraction is a suffix of the input. -/
theorem extract_prefix_go_sfx : ∀ (n pl : Nat) (acc l : List Nat), l.length ≤ n →
    ∃ P, P ++ (extract_prefix_go pl acc l).2 = l := by
  intro n
  induction n with
  | zero =>
    intro pl acc l hn
    have hl : l = [] := List.eq_nil_of_length_eq_zero (Nat.le_zero.mp hn)
    subst hl
    rw [extract_prefix_go_nil]
    exact ⟨[], rfl⟩
  | succ n ih =>
    intro pl acc l hn
    match l with
    | [] =>
      rw [extract_prefix_go_nil]
      exact ⟨[], rfl⟩
    | [b] =>
      rw [extract_prefix_go_one]
      exact ⟨[], rfl⟩
    | b :: r1 :: rest =>
      by_cases hesc : b = 27 ∧ r1 = 91
      · obtain ⟨hb, hr1⟩ := hesc
        subst hb
        subst hr1
        rw [extract_prefix_go_esc]
        have hlen : (skipSGRsplit rest).2.length ≤ n := by
          have := skipSGRsplit_len rest
          simp only [List.length_cons] at hn
          omega
        by_cases hcap : pl + (27 :: 91 :: (skipSGRsplit rest).1).length < 63
        · rw [if_pos hcap]
          obtain ⟨P, hP⟩ := ih _ _ (skipSGRsplit rest).2 hlen
          refine ⟨27 :: 91 :: (skipSGRsplit rest).1 ++ P, ?_⟩
          have hr : (skipSGRsplit rest).1 ++
              (P ++ (extract_prefix_go (pl + (27 :: 91 :: (skipSGRsplit rest).1).length)
                (acc ++ 27 :: 91 :: (skipSGRsplit rest).1) (skipSGRsplit rest).2).2) =
              rest := by
            rw [hP, skipSGRsplit_append]
          calc (27 :: 91 :: (skipSGRsplit rest).1 ++ P) ++
              (extract_prefix_go (pl + (27 :: 91 :: (skipSGRsplit rest).1).length)
                (acc ++ 27 :: 91 :: (skipSGRsplit rest).1) (skipSGRsplit rest).2).2
              = 27 :: 91 :: ((skipSGRsplit rest).1 ++
                (P ++ (extract_prefix_go (pl + (27 :: 91 :: (skipSGRsplit rest).1).length)
                  (acc ++ 27 :: 91 :: (skipSGRsplit rest).1) (skipSGRsplit rest).2).2)) := by
                simp
            _ = 27 :: 91 :: rest := by rw [hr]
        · rw [if_neg hcap]
          obtain ⟨P, hP⟩ := ih _ _ (skipSGRsplit rest).2 hlen
          refine ⟨27 :: 91 :: (skipSGRsplit rest).1 ++ P, ?_⟩
          have hr : (skipSGRsplit rest).1 ++
              (P ++ (extract_prefix_go pl acc (skipSGRsplit rest).2).2) = rest := by
            rw [hP, skipSGRsplit_append]
          calc (27 :: 91 :: (skipSGRsplit rest).1 ++ P) ++
              (extract_prefix_go pl acc (skipSGRsplit rest).2).2
              = 27 :: 91 :: ((skipSGRsplit rest).1 ++
                (P ++ (extract_prefix_go pl acc (skipSGRsplit rest).2).2)) := by
                simp
            _ = 27 :: 91 :: rest := by rw [hr]
      · rw [extract_prefix_go_stop pl acc b r1 rest hesc]
        exact ⟨[], rfl⟩

/-- When prefix extraction leaves a nonempty remainder on a NUL-free input,
the extracted prefix is a pure ANSI run: prepending it changes neither the
visible content nor the visible length of anything. -/
theorem extract_prefix_go_neutral : ∀ (n pl : Nat) (acc l : List Nat),
    l.length ≤ n → 0 ∉ l →
    (∀ X, vis_content (acc ++ X) = vis_content X) →
    (∀ X, visible_strlen (acc ++ X) = visible_strlen X) →
    (extract_prefix_go pl acc l).2 ≠ [] →
    (∀ X, vis_content ((extract_prefix_go pl acc l).1 ++ X) = vis_content X) ∧
    (∀ X, visible_strlen ((extract_prefix_go pl acc l).1 ++ X) = visible_strlen X) := by
  intro n
  induction n with
  | zero =>
    intro pl acc l hn h0l hvc hvs hne
    have hl : l = [] := List.eq_nil_of_length_eq_zero (Nat.le_zero.mp hn)
    subst hl
    rw [extract_prefix_go_nil]
    exact ⟨hvc, hvs⟩
  | succ n ih =>
    intro pl acc l hn h0l hvc hvs hne
    match l with
    | [] =>
      rw [extract_prefix_go_nil]
      exact ⟨hvc, hvs⟩
    | [b] =>
      rw [extract_prefix_go_one]
      exact ⟨hvc, hvs⟩
    | b :: r1 :: rest =>
      by_cases hesc : b = 27 ∧ r1 = 91
      · obtain ⟨hb, hr1⟩ := hesc
        subst hb
        subst hr1
        have h0rest : 0 ∉ rest := fun h =>
          h0l (List.mem_cons_of_mem _ (List.mem_cons_of_mem _ h))
        have hp2ne : (skipSGRsplit rest).2 ≠ [] := by
          intro hp2
          rw [extract_prefix_go_esc, hp2] at hne
          by_cases hcap : pl + (27 :: 91 :: (skipSGRsplit rest).1).length < 63
          · rw [if_pos hcap, extract_prefix_go_nil] at hne
            exact hne rfl
          · rw [if_neg hcap, extract_prefix_go_nil] at hne
            exact hne rfl
        rcases skipSGRsplit_cases rest with ⟨c, hc109, hc0, hrteq⟩ |
          ⟨hmem, _⟩ | ⟨_, _, heqa⟩
        · have hR1 : (skipSGRsplit rest).1 = c ++ [109] := by
            conv_lhs => rw [hrteq]
            rw [skipSGRsplit_terminated c _ hc109 hc0]
          have hlen : (skipSGRsplit rest).2.length ≤ n := by
            have := skipSGRsplit_len rest
            simp only [List.length_cons] at hn
            omega
          have h0p2 : 0 ∉ (skipSGRsplit rest).2 := by
            intro hx
            apply h0rest
            rw [← skipSGRsplit_append rest]
            exact List.mem_append.mpr (Or.inr hx)
          rw [extract_prefix_go_esc]
          by_cases hcap : pl + (27 :: 91 :: (skipSGRsplit rest).1).length < 63
          · rw [if_pos hcap]
            have hvc2 : ∀ X, vis_content
                ((acc ++ 27 :: 91 :: (skipSGRsplit rest).1) ++ X) = vis_content X := by
              intro X
              rw [List.append_assoc, hvc, hR1, vis_content_atom c hc109 hc0 X]
            have hvs2 : ∀ X, visible_strlen
                ((acc ++ 27 :: 91 :: (skipSGRsplit rest).1) ++ X) =
                visible_strlen X := by
              intro X
              rw [List.append_assoc, hvs, hR1, visible_strlen_atom c hc109 hc0 X]
            have hne2 : (extract_prefix_go
                (pl + (27 :: 91 :: (skipSGRsplit rest).1).length)
                (acc ++ 27 :: 91 :: (skipSGRsplit rest).1)
                (skipSGRsplit rest).2).2 ≠ [] := by
              rw [extract_prefix_go_esc, if_pos hcap] at hne
              exact hne
            exact ih _ _ _ hlen h0p2 hvc2 hvs2 hne2
          · rw [if_neg hcap]
            have hne2 : (extract_prefix_go pl acc (skipSGRsplit rest).2).2 ≠ [] := by
              rw [extract_prefix_go_esc, if_neg hcap] at hne
              exact hne
            exact ih _ _ _ hlen h0p2 hvc hvs hne2
        · exact absurd (List.mem_cons_of_mem _ (List.mem_cons_of_mem _ hmem)) h0l
        · exact absurd (congrArg Prod.snd heqa) (by simpa using hp2ne)
      · rw [extract_prefix_go_stop pl acc b r1 rest hesc]
        exact ⟨hvc, hvs⟩

/-- Re-applying a neutral prefix and the per-line suffix around each
segment does not change the visible reassembly. -/
theorem wrap_join_visible_map (pfx sfx : List Nat)
    (hpfx : ∀ X, vis_content (pfx ++ X) = vis_content X) :
    ∀ L : List (List Nat × Bool),
      wrap_join_visible (L.map (fun p => (pfx ++ p.1 ++ sfx, p.2))) =
        wrap_join_with sfx L := by
  intro L
  induction L with
  | nil => rfl
  | cons q R ihr =>
    simp only [List.map_cons, wrap_join_visible, wrap_join_with]
    rw [ihr, show pfx ++ q.1 ++ sfx = pfx ++ (q.1 ++ sfx) from
      List.append_assoc pfx q.1 sfx, hpfx]

/-- A string whose visible length already fits is printed as one line. -/
theorem chunks_fit (s : List Nat) (hfit : visible_strlen s ≤ 76) :
    print_bordered_wrapped_chunks s 76 = [(s, false)] := by
  simp only [print_bordered_wrapped_chunks, Nat.min_self]
  rw [if_pos hfit]

/-- In the wrapping case the chunk list is the wrap of a NUL-free content
around which a neutral prefix and a good suffix are re-applied, and content
plus suffix carries exactly the visible content of the input. -/
theorem chunks_shape (s : List Nat) (h0 : 0 ∉ s)
    (hvis : ¬ visible_strlen s ≤ 76) :
    ∃ pfx content sfx,
      print_bordered_wrapped_chunks s 76 =
        (wrap_go 76 content).map (fun p => (pfx ++ p.1 ++ sfx, p.2)) ∧
      good_sfx sfx ∧ 0 ∉ content ∧
      (∀ X, vis_content (pfx ++ X) = vis_content X) ∧
      (∀ X, visible_strlen (pfx ++ X) = visible_strlen X) ∧
      vis_content (content ++ sfx) = vis_content s := by
  have hvs_ep : visible_strlen ((extract_prefix_go 0 [] s).2) = visible_strlen s :=
    extract_prefix_go_vs s.length 0 [] s (Nat.le_refl _)
  have hvc_ep : vis_content ((extract_prefix_go 0 [] s).2) = vis_content s :=
    extract_prefix_go_vc s.length 0 [] s (Nat.le_refl _)
  have hep2ne : (extract_prefix_go 0 [] s).2 ≠ [] := by
    intro h
    rw [h] at hvs_ep
    have : visible_strlen ([] : List Nat) = 0 := by simp [visible_strlen]
    omega
  obtain ⟨hpvc, hpvs⟩ := extract_prefix_go_neutral s.length 0 [] s (Nat.le_refl _)
    h0 (fun X => rfl) (fun X => rfl) hep2ne
  have h0ep2 : 0 ∉ (extract_prefix_go 0 [] s).2 := by
    obtain ⟨P, hP⟩ := extract_prefix_go_sfx s.length 0 [] s (Nat.le_refl _)
    intro hx
    apply h0
    rw [← hP]
    exact List.mem_append.mpr (Or.inr hx)
  by_cases hhr : (decide (4 ≤ s.length) &&
      (s.drop (s.length - 4) == [27, 91, 48, 109])) = true
  · refine ⟨(extract_prefix_go 0 [] s).1,
      (extract_prefix_go 0 [] s).2.take ((extract_prefix_go 0 [] s).2.length - 4),
      [27, 91, 48, 109], ?_, good_sfx_reset, ?_, hpvc, hpvs, ?_⟩
    · simp only [print_bordered_wrapped_chunks, Nat.min_self]
      rw [if_neg hvis, hhr]
      simp
    · intro hx
      apply h0ep2
      exact (List.take_sublist _ _).subset hx
    · have hdecomp : (extract_prefix_go 0 [] s).2.take
          ((extract_prefix_go 0 [] s).2.length - 4) ++ [27, 91, 48, 109] =
          (extract_prefix_go 0 [] s).2 := by
        rw [Bool.and_eq_true] at hhr
        obtain ⟨hlen4, hdrop⟩ := hhr
        rw [decide_eq_true_iff] at hlen4
        rw [beq_iff_eq] at hdrop
        obtain ⟨P, hP⟩ := extract_prefix_go_sfx s.length 0 [] s (Nat.le_refl _)
        have hlen77 : 77 ≤ (extract_prefix_go 0 [] s).2.length := by
          have hv4 := visible_strlen_le_length
            ((extract_prefix_go 0 [] s).2.length) ((extract_prefix_go 0 [] s).2)
            (Nat.le_refl _)
          omega
        have hslen : s.length = P.length + (extract_prefix_go 0 [] s).2.length := by
          conv_lhs => rw [← hP, List.length_append]
        have harith : s.length - 4 =
            P.length + ((extract_prefix_go 0 [] s).2.length - 4) := by
          omega
        have hdrop2 : (extract_prefix_go 0 [] s).2.drop
            ((extract_prefix_go 0 [] s).2.length - 4) = [27, 91, 48, 109] := by
          calc List.drop ((extract_prefix_go 0 [] s).2.length - 4)
                (extract_prefix_go 0 [] s).2
              = List.drop (P.length + ((extract_prefix_go 0 [] s).2.length - 4))
                (P ++ (extract_prefix_go 0 [] s).2) :=
              (List.drop_append _).symm
            _ = s.drop (P.length + ((extract_prefix_go 0 [] s).2.length - 4)) := by
              rw [hP]
            _ = s.drop (s.length - 4) := by rw [← harith]
            _ = [27, 91, 48, 109] := hdrop
        conv_rhs => rw [← List.take_append_drop
          ((extract_prefix_go 0 [] s).2.length - 4) (extract_prefix_go 0 [] s).2]
        rw [hdrop2]
      rw [hdecomp, hvc_ep]
  · refine ⟨(extract_prefix_go 0 [] s).1, (extract_prefix_go 0 [] s).2, [],
      ?_, good_sfx_nil, h0ep2, hpvc, hpvs, ?_⟩
    · simp only [print_bordered_wrapped_chunks, Nat.min_self]
      rw [if_neg hvis]
      rw [Bool.not_eq_true] at hhr
      simp only [hhr]
      simp
    · rw [List.append_nil, hvc_ep]

/-- C6: for every (NUL-free, as all C strings are) input byte string, every
physical output line produced by the word-wrap routine at the renderer's
full width has visible length at most 76, where visible length excludes
ANSI SGR escape sequences and does not count UTF-8 continuation bytes. -/
theorem wrapped_lines_visible_le (s : List Nat) (h0 : 0 ∉ s) :
    ∀ line ∈ print_bordered_wrapped_lines s 76, visible_strlen line ≤ 76 := by
  intro line hline
  by_cases hfit : visible_strlen s ≤ 76
  · rw [print_bordered_wrapped_lines, chunks_fit s hfit] at hline
    simp at hline
    rw [hline]
    exact hfit
  · obtain ⟨pfx, content, sfx, hchunks, hgood, h0c, hpvc, hpvs, hvceq⟩ :=
      chunks_shape s h0 hfit
    rw [print_bordered_wrapped_lines, hchunks] at hline
    simp only [List.map_map, List.mem_map] at hline
    obtain ⟨q, hq, hline_eq⟩ := hline
    obtain ⟨hbound, _⟩ := wrap_go_spec 76 (by omega) sfx hgood content.length
      content (Nat.le_refl _) h0c
    have hb := hbound q hq
    rw [← hline_eq]
    show visible_strlen (pfx ++ q.1 ++ sfx) ≤ 76
    rw [List.append_assoc, hpvs]
    exact hb

/-- Witness for C6 on a concrete coloured 80-character string. -/
theorem wrapped_lines_visible_le_witness :
    ((0 : Nat) ∉ 27 :: 91 :: 51 :: 49 :: 109 ::
      (List.replicate 80 97 ++ [27, 91, 48, 109])) ∧
    ∀ line ∈ print_bordered_wrapped_lines
      (27 :: 91 :: 51 :: 49 :: 109 ::
        (List.replicate 80 97 ++ [27, 91, 48, 109])) 76,
      visible_strlen line ≤ 76 :=
  ⟨by decide, wrapped_lines_visible_le _ (by decide)⟩

/-- C7: for every (NUL-free) input byte string, concatenating the visible
content of the lines produced by the word-wrap routine, inserting a single
space at each break that fell on a space, yields exactly the visible
content of the original string. -/
theorem wrap_preserves_visible_content (s : List Nat) (h0 : 0 ∉ s) :
    wrap_join_visible (print_bordered_wrapped_chunks s 76) = vis_content s := by
  by_cases hfit : visible_strlen s ≤ 76
  · rw [chunks_fit s hfit]
    simp [wrap_join_visible]
  · obtain ⟨pfx, content, sfx, hchunks, hgood, h0c, hpvc, hpvs, hvceq⟩ :=
      chunks_shape s h0 hfit
    rw [hchunks, wrap_join_visible_map pfx sfx hpvc]
    obtain ⟨_, hjoin⟩ := wrap_go_spec 76 (by omega) sfx hgood content.length
      content (Nat.le_refl _) h0c
    rw [hjoin, hvceq]

/-- Witness for C7 on a concrete coloured 90-character string with
spaces. -/
theorem wrap_preserves_visible_content_witness :
    ((0 : Nat) ∉ 27 :: 91 :: 51 :: 50 :: 109 ::
      (List.replicate 40 98 ++ 32 :: List.replicate 50 99 ++ [27, 91, 48, 109])) ∧
    wrap_join_visible (print_bordered_wrapped_chunks
      (27 :: 91 :: 51 :: 50 :: 109 ::
        (List.replicate 40 98 ++ 32 :: List.replicate 50 99 ++ [27, 91, 48, 109])) 76) =
    vis_content
      (27 :: 91 :: 51 :: 50 :: 109 ::
        (List.replicate 40 98 ++ 32 :: List.replicate 50 99 ++ [27, 91, 48, 109])) :=
  ⟨by decide, wrap_preserves_visible_content _ (by decide)⟩
